import Mathlib

/-!
# A singly linked list with a sentinel head (`single-linked-list.h`)

Shallow embedding of the class template `SingleLinkedList<Type>`.

* The free store is a map from addresses to nodes together with an allocator:
  `new` hands out the address `brk`, which is above every live node, and throws
  `std::bad_alloc` once the budget `avail` is used up.  Pointers are 64 bit wide, so a
  valid heap keeps `brk + avail` below `2 ^ 64`.
* A list object is the pair of its members `head_` (the sentinel, of which only
  `next_node` is ever read) and `size_`; `size_t` arithmetic is taken modulo `2 ^ 64`.
* A `Node*` held by an iterator is the address of the sentinel of the list at hand,
  a null pointer, or the address of a node of the free store.
* A method is a function from the heap and the object to a result `Res`: normal
  return, a propagated `std::bad_alloc` (with the state the caller then sees), or a
  fault (undefined behaviour, or a loop that used up its fuel).
-/

namespace SinglyLinked

/-- Modulus of `size_t` arithmetic. -/
def SIZE_MOD : Nat := 2 ^ 64

/-- The struct `Node`: a value and the pointer `next_node`.  A pointer to a node is its
address in the free store, a natural number; `none` is `nullptr`. -/
structure Node (α : Type) where
  value : α
  next_node : Option Nat

/-- The free store: live nodes by address, the next address `new` hands out, and the
number of nodes `new` can still create before it throws `std::bad_alloc`. -/
structure Heap (α : Type) where
  cells : Nat → Option (Node α)
  brk : Nat
  avail : Nat

/-- How an operation can fail to complete. -/
inductive Fault where
  | undefined_behavior : Fault
  | out_of_fuel : Fault
deriving DecidableEq, Repr

/-- Outcome of a method: normal return in state `s` with result `r`, `std::bad_alloc`
propagated to the caller in state `s`, or a fault. -/
inductive Res (σ ρ : Type) where
  | ok (s : σ) (r : ρ) : Res σ ρ
  | bad_alloc (s : σ) : Res σ ρ
  | fault (f : Fault) : Res σ ρ

/-- The state in which an operation completes, normally or by throwing. -/
def Res.state {σ ρ : Type} : Res σ ρ → Option σ
  | .ok s _ => some s
  | .bad_alloc s => some s
  | .fault _ => none

/-- An empty free store with room for `n` nodes. -/
def Heap.init (α : Type) (n : Nat) : Heap α :=
  { cells := fun _ => none, brk := 0, avail := n }

/-- The expression `new Node(val, next)`: `none` when allocation fails. -/
def Heap.new_node {α : Type} (h : Heap α) (val : α) (next : Option Nat) :
    Option (Heap α × Nat) :=
  if h.avail = 0 then none
  else some ({ cells := Function.update h.cells h.brk (some ⟨val, next⟩),
               brk := h.brk + 1, avail := h.avail - 1 }, h.brk)

/-- The statement `delete(p)` for a live node `p`. -/
def Heap.delete_node {α : Type} (h : Heap α) (p : Nat) : Heap α :=
  { h with cells := Function.update h.cells p none }

/-- A value of type `Node*` as an iterator holds it: the address `&head_` of the
sentinel of the list at hand, or a pointer into the free store (`none` is `nullptr`). -/
inductive NodePtr where
  | head_ : NodePtr
  | heap (p : Option Nat) : NodePtr
deriving DecidableEq, Repr

/-- The member `head_`: the sentinel node.  Its `value` is never read. -/
structure Sentinel where
  next_node : Option Nat := none
deriving DecidableEq, Repr

/-- The data members of `SingleLinkedList<Type>`. -/
structure SingleLinkedList where
  head_ : Sentinel := {}
  size_ : Nat := 0
deriving DecidableEq, Repr

/-- The class template `BasicIterator<ValueType>`: a wrapper of a `Node*`. -/
structure BasicIterator where
  node_ : NodePtr
deriving DecidableEq, Repr

/-- Reads `p->next_node` through a `Node*` of the list `self`. -/
def load_next {α : Type} (h : Heap α) (self : SingleLinkedList) : NodePtr → Option (Option Nat)
  | .head_ => some self.head_.next_node
  | .heap none => none
  | .heap (some a) =>
    match h.cells a with
    | none => none
    | some n => some n.next_node

/-- Writes `p->next_node = v` through a `Node*` of the list `self`. -/
def store_next {α : Type} (h : Heap α) (self : SingleLinkedList) (v : Option Nat) :
    NodePtr → Option (Heap α × SingleLinkedList)
  | .head_ => some (h, { self with head_ := ⟨v⟩ })
  | .heap none => none
  | .heap (some a) =>
    match h.cells a with
    | none => none
    | some n => some ({ h with cells := Function.update h.cells a (some ⟨n.value, v⟩) }, self)

namespace BasicIterator

/-- The iterator comparison `operator==`: both hold the same `Node*`. -/
def op_eq (a b : BasicIterator) : Bool := decide (a.node_ = b.node_)

/-- The iterator comparison `operator!=`. -/
def op_ne (a b : BasicIterator) : Bool := decide (a.node_ ≠ b.node_)

/-- The increment `operator++`: `node_ = (*node_).next_node`. -/
def incr {α : Type} (h : Heap α) (owner : SingleLinkedList) (it : BasicIterator) :
    Except Fault BasicIterator :=
  match load_next h owner it.node_ with
  | none => .error .undefined_behavior
  | some nx => .ok ⟨.heap nx⟩

/-- The dereference `operator*`: `(*node_).value`; the sentinel holds no element. -/
def deref {α : Type} (h : Heap α) (it : BasicIterator) : Except Fault α :=
  match it.node_ with
  | .head_ => .error .undefined_behavior
  | .heap none => .error .undefined_behavior
  | .heap (some a) =>
    match h.cells a with
    | none => .error .undefined_behavior
    | some n => .ok n.value

/-- The iterator after `k` increments. -/
def advance {α : Type} (h : Heap α) (owner : SingleLinkedList) :
    Nat → BasicIterator → Except Fault BasicIterator
  | 0, it => .ok it
  | k + 1, it =>
    match it.incr h owner with
    | .error f => .error f
    | .ok nx => advance h owner k nx

end BasicIterator

namespace SingleLinkedList

/-- The default constructor `SingleLinkedList()`. -/
def ctor : SingleLinkedList := {}

/-- The members `begin()` and `cbegin()`. -/
def cbegin (self : SingleLinkedList) : BasicIterator := ⟨.heap self.head_.next_node⟩

/-- The members `end()` and `cend()`: a default-constructed iterator. -/
def cend (_self : SingleLinkedList) : BasicIterator := ⟨.heap none⟩

/-- The members `before_begin()` and `cbefore_begin()`. -/
def before_begin (_self : SingleLinkedList) : BasicIterator := ⟨.head_⟩

/-- The member `GetSize`. -/
def GetSize (self : SingleLinkedList) : Nat := self.size_

/-- The member `IsEmpty`. -/
def IsEmpty (self : SingleLinkedList) : Bool := if self.size_ = 0 then true else false

/-- The member `swap`: exchanges the sentinels' links and the sizes. -/
def swap (self other : SingleLinkedList) : SingleLinkedList × SingleLinkedList :=
  let tmp := other.head_.next_node
  let other1 : SingleLinkedList := { other with head_ := ⟨self.head_.next_node⟩ }
  let self1 : SingleLinkedList := { self with head_ := ⟨tmp⟩ }
  let tmp_size := other1.size_
  let other2 : SingleLinkedList := { other1 with size_ := self1.size_ }
  let self2 : SingleLinkedList := { self1 with size_ := tmp_size }
  (self2, other2)

/-- The member `PushFront`. -/
def PushFront {α : Type} (h : Heap α) (self : SingleLinkedList) (value : α) :
    Res (Heap α × SingleLinkedList) Unit :=
  match h.new_node value self.head_.next_node with
  | none => .bad_alloc (h, self)
  | some (h1, p) => .ok (h1, { head_ := ⟨some p⟩, size_ := (self.size_ + 1) % SIZE_MOD }) ()

/-- The member `PopFront`. -/
def PopFront {α : Type} (h : Heap α) (self : SingleLinkedList) :
    Res (Heap α × SingleLinkedList) Unit :=
  match self.head_.next_node with
  | none => .fault .undefined_behavior
  | some tmp =>
    match h.cells tmp with
    | none => .fault .undefined_behavior
    | some n =>
      .ok (h.delete_node tmp,
        { head_ := ⟨n.next_node⟩, size_ := (self.size_ + (SIZE_MOD - 1)) % SIZE_MOD }) ()

/-- The member `InsertAfter`. -/
def InsertAfter {α : Type} (h : Heap α) (self : SingleLinkedList) (pos : BasicIterator)
    (value : α) : Res (Heap α × SingleLinkedList) BasicIterator :=
  match load_next h self pos.node_ with
  | none => .fault .undefined_behavior
  | some nx =>
    match h.new_node value nx with
    | none => .bad_alloc (h, self)
    | some (h1, newNode) =>
      match store_next h1 self (some newNode) pos.node_ with
      | none => .fault .undefined_behavior
      | some (h2, self2) =>
        let self3 : SingleLinkedList := { self2 with size_ := (self2.size_ + 1) % SIZE_MOD }
        match load_next h2 self3 pos.node_ with
        | none => .fault .undefined_behavior
        | some r => .ok (h2, self3) ⟨.heap r⟩

/-- The member `EraseAfter`. -/
def EraseAfter {α : Type} (h : Heap α) (self : SingleLinkedList) (pos : BasicIterator) :
    Res (Heap α × SingleLinkedList) BasicIterator :=
  match load_next h self pos.node_ with
  | none => .fault .undefined_behavior
  | some tmp =>
    match load_next h self (.heap tmp) with
    | none => .fault .undefined_behavior
    | some nx =>
      match store_next h self nx pos.node_, tmp with
      | some (h1, self1), some t =>
        let h2 := h1.delete_node t
        let self2 : SingleLinkedList :=
          { self1 with size_ := (self1.size_ + (SIZE_MOD - 1)) % SIZE_MOD }
        match load_next h2 self2 pos.node_ with
        | none => .fault .undefined_behavior
        | some r => .ok (h2, self2) ⟨.heap r⟩
      | _, _ => .fault .undefined_behavior

/-- The loop `while (size_)` of `Clear`, with a bound on the number of iterations. -/
def Clear_loop {α : Type} :
    Nat → Heap α → SingleLinkedList → Res (Heap α × SingleLinkedList) Unit
  | fuel, h, self =>
    if self.size_ = 0 then .ok (h, self) ()
    else
      match fuel with
      | 0 => .fault .out_of_fuel
      | fuel + 1 =>
        match self.head_.next_node with
        | none => .fault .undefined_behavior
        | some tmp =>
          match h.cells tmp with
          | none => .fault .undefined_behavior
          | some n =>
            Clear_loop fuel (h.delete_node tmp)
              { head_ := ⟨n.next_node⟩, size_ := (self.size_ + (SIZE_MOD - 1)) % SIZE_MOD }

/-- The member `Clear`: every iteration lowers `size_`, so `size_` iterations suffice. -/
def Clear {α : Type} (h : Heap α) (self : SingleLinkedList) :
    Res (Heap α × SingleLinkedList) Unit :=
  Clear_loop self.size_ h self

/-- The destructor `~SingleLinkedList`. -/
def dtor {α : Type} (h : Heap α) (self : SingleLinkedList) :
    Res (Heap α × SingleLinkedList) Unit :=
  Clear h self

end SingleLinkedList

/-- The range constructor `std::vector<Type> temp(first, last)` over list iterators:
the values met from `first` up to `last`. -/
def vector_from_range {α : Type} (h : Heap α) (owner : SingleLinkedList) :
    Nat → BasicIterator → BasicIterator → Except Fault (List α)
  | fuel, first, last =>
    if first.op_eq last then .ok []
    else
      match fuel with
      | 0 => .error .out_of_fuel
      | fuel + 1 =>
        match first.deref h, first.incr h owner with
        | .ok v, .ok nx =>
          match vector_from_range h owner fuel nx last with
          | .ok rest => .ok (v :: rest)
          | .error f => .error f
        | _, _ => .error .undefined_behavior

/-- The front-to-back traversal of a list from `begin()` to `end()`. -/
def SingleLinkedList.traverse {α : Type} (h : Heap α) (self : SingleLinkedList) :
    Except Fault (List α) :=
  vector_from_range h self h.brk self.cbegin self.cend

/-- The `Container` argument of `CopyFromValues`: an initializer list or a list. -/
inductive Container (α : Type) where
  | initializer_list (values : List α) : Container α
  | list (l : SingleLinkedList) : Container α

/-- The statement `std::vector<Type> temp(source.begin(), source.end())`. -/
def Container.to_vector {α : Type} (h : Heap α) : Container α → Except Fault (List α)
  | .initializer_list values => .ok values
  | .list l => l.traverse h

namespace SingleLinkedList

/-- The loop of `CopyFromValues` over the reverse iterators of `temp`; `rest` is the
range from `rbegin` to `rend`. -/
def CopyFromValues_loop {α : Type} :
    List α → Heap α → SingleLinkedList → Res (Heap α × SingleLinkedList) Unit
  | [], h, tmp => .ok (h, tmp) ()
  | x :: rest, h, tmp =>
    match PushFront h tmp x with
    | .ok (h1, tmp1) _ => CopyFromValues_loop rest h1 tmp1
    | .bad_alloc s => .bad_alloc s
    | .fault f => .fault f

/-- The member template `CopyFromValues`. -/
def CopyFromValues {α : Type} (h : Heap α) (tmp : SingleLinkedList) (source : Container α) :
    Res (Heap α × SingleLinkedList) Unit :=
  match source.to_vector h with
  | .error f => .fault f
  | .ok temp => CopyFromValues_loop temp.reverse h tmp

/-- Leaving the scope of the local list `tmp` with outcome `r` of the scope body: the
destructor of `tmp` runs, on normal exit and on unwinding alike; `keep` is the object
the caller goes on with. -/
def leave_scope {α : Type} (h : Heap α) (tmp keep : SingleLinkedList) (thrown : Bool) :
    Res (Heap α × SingleLinkedList) Unit :=
  match dtor h tmp with
  | .ok (h1, _) _ => if thrown then .bad_alloc (h1, keep) else .ok (h1, keep) ()
  | .bad_alloc (h1, _) => .bad_alloc (h1, keep)
  | .fault f => .fault f

/-- The constructor from `std::initializer_list<Type>`. -/
def from_initializer_list {α : Type} (h : Heap α) (values : List α) :
    Res (Heap α × SingleLinkedList) Unit :=
  let self : SingleLinkedList := {}
  if self.size_ = 0 ∧ self.head_.next_node = none then
    let tmp : SingleLinkedList := {}
    match CopyFromValues h tmp (.initializer_list values) with
    | .ok (h1, tmp1) _ =>
      let (self1, tmp2) := self.swap tmp1
      leave_scope h1 tmp2 self1 false
    | .bad_alloc (h1, tmp1) => leave_scope h1 tmp1 self true
    | .fault f => .fault f
  else .ok (h, self) ()

/-- The argument `rhs` of `operator=`: a reference to the assigned-to object itself or
to another list object; the test `this != &rhs` tells the two apart. -/
inductive Rhs where
  | this : Rhs
  | other (l : SingleLinkedList) : Rhs

/-- The copy assignment `operator=`. -/
def assign {α : Type} (h : Heap α) (self : SingleLinkedList) :
    Rhs → Res (Heap α × SingleLinkedList) Unit
  | .this => .ok (h, self) ()
  | .other rhs =>
    let tmp : SingleLinkedList := {}
    match CopyFromValues h tmp (.list rhs) with
    | .ok (h1, tmp1) _ =>
      let (self1, tmp2) := self.swap tmp1
      leave_scope h1 tmp2 self1 false
    | .bad_alloc (h1, tmp1) => leave_scope h1 tmp1 self true
    | .fault f => .fault f

/-- The copy constructor: `tmp` is a local object, never `other` itself. -/
def copy_ctor {α : Type} (h : Heap α) (other : SingleLinkedList) :
    Res (Heap α × SingleLinkedList) Unit :=
  let self : SingleLinkedList := {}
  if self.size_ = 0 ∧ self.head_.next_node = none then
    let tmp : SingleLinkedList := {}
    match assign h tmp (.other other) with
    | .ok (h1, tmp1) _ =>
      let (self1, tmp2) := self.swap tmp1
      leave_scope h1 tmp2 self1 false
    | .bad_alloc (h1, tmp1) => leave_scope h1 tmp1 self true
    | .fault f => .fault f
  else .ok (h, self) ()

end SingleLinkedList

/-- The algorithm `std::equal(first1, last1, first2, last2)` on forward iterators. -/
def std_equal {α : Type} [BEq α] (h : Heap α) (o1 o2 : SingleLinkedList) :
    Nat → BasicIterator → BasicIterator → BasicIterator → BasicIterator → Except Fault Bool
  | fuel, first1, last1, first2, last2 =>
    if first1.op_ne last1 && first2.op_ne last2 then
      match fuel with
      | 0 => .error .out_of_fuel
      | fuel + 1 =>
        match first1.deref h, first2.deref h with
        | .ok x, .ok y =>
          if !(x == y) then .ok false
          else
            match first1.incr h o1, first2.incr h o2 with
            | .ok n1, .ok n2 => std_equal h o1 o2 fuel n1 last1 n2 last2
            | _, _ => .error .undefined_behavior
        | _, _ => .error .undefined_behavior
    else .ok (first1.op_eq last1 && first2.op_eq last2)

/-- The comparison `operator==` of two lists. -/
def operator_eq {α : Type} [BEq α] (h : Heap α) (lhs rhs : SingleLinkedList) :
    Except Fault Bool :=
  std_equal h lhs rhs h.brk lhs.cbegin lhs.cend rhs.cbegin rhs.cend

/-- The comparison `operator!=` of two lists. -/
def operator_ne {α : Type} [BEq α] (h : Heap α) (lhs rhs : SingleLinkedList) :
    Except Fault Bool :=
  match std_equal h lhs rhs h.brk lhs.cbegin lhs.cend rhs.cbegin rhs.cend with
  | .ok b => .ok (!b)
  | .error f => .error f

/-- The algorithm `std::lexicographical_compare(first1, last1, first2, last2)`; `lt` is
the `operator<` of the element type. -/
def std_lexicographical_compare {α : Type} (lt : α → α → Bool) (h : Heap α)
    (o1 o2 : SingleLinkedList) :
    Nat → BasicIterator → BasicIterator → BasicIterator → BasicIterator → Except Fault Bool
  | fuel, first1, last1, first2, last2 =>
    if first1.op_ne last1 && first2.op_ne last2 then
      match fuel with
      | 0 => .error .out_of_fuel
      | fuel + 1 =>
        match first1.deref h, first2.deref h with
        | .ok x, .ok y =>
          if lt x y then .ok true
          else if lt y x then .ok false
          else
            match first1.incr h o1, first2.incr h o2 with
            | .ok n1, .ok n2 => std_lexicographical_compare lt h o1 o2 fuel n1 last1 n2 last2
            | _, _ => .error .undefined_behavior
        | _, _ => .error .undefined_behavior
    else .ok (first1.op_eq last1 && first2.op_ne last2)

/-- The comparison `operator<` of two lists. -/
def operator_lt {α : Type} (lt : α → α → Bool) (h : Heap α) (lhs rhs : SingleLinkedList) :
    Except Fault Bool :=
  std_lexicographical_compare lt h lhs rhs h.brk lhs.cbegin lhs.cend rhs.cbegin rhs.cend

/-- The comparison `operator<=` of two lists: `lhs < rhs || rhs == lhs`. -/
def operator_le {α : Type} [BEq α] (lt : α → α → Bool) (h : Heap α)
    (lhs rhs : SingleLinkedList) : Except Fault Bool :=
  match operator_lt lt h lhs rhs with
  | .ok true => .ok true
  | .ok false => operator_eq h rhs lhs
  | .error f => .error f

/-- The comparison `operator>` of two lists: `rhs < lhs`. -/
def operator_gt {α : Type} (lt : α → α → Bool) (h : Heap α) (lhs rhs : SingleLinkedList) :
    Except Fault Bool :=
  operator_lt lt h rhs lhs

/-- The comparison `operator>=` of two lists: `lhs > rhs || rhs == lhs`. -/
def operator_ge {α : Type} [BEq α] (lt : α → α → Bool) (h : Heap α)
    (lhs rhs : SingleLinkedList) : Except Fault Bool :=
  match operator_gt lt h lhs rhs with
  | .ok true => .ok true
  | .ok false => operator_eq h rhs lhs
  | .error f => .error f

/-- The free function template `swap(lhs, rhs)`. -/
def swap (lhs rhs : SingleLinkedList) : SingleLinkedList × SingleLinkedList :=
  lhs.swap rhs

/-! ## Specification vocabulary -/

/-- A valid free store: nothing is live at or above `brk`, and every address `new` can
still hand out fits a 64 bit pointer. -/
def Heap.Valid {α : Type} (h : Heap α) : Prop :=
  (∀ a, h.brk ≤ a → h.cells a = none) ∧ h.brk + h.avail < SIZE_MOD

/-- The number of nodes met from `p` by following `next_node` until null, if a null
pointer is met within `fuel` steps. -/
def count_nodes {α : Type} (cells : Nat → Option (Node α)) : Nat → Option Nat → Option Nat
  | _, none => some 0
  | 0, some _ => none
  | fuel + 1, some a =>
    match cells a with
    | none => none
    | some n =>
      match count_nodes cells fuel n.next_node with
      | none => none
      | some k => some (k + 1)

/-- The size invariant: `size_` is the number of nodes reachable from
`head_.next_node` by following `next_node` until null. -/
def SizeInv {α : Type} (h : Heap α) (self : SingleLinkedList) : Prop :=
  count_nodes h.cells h.brk self.head_.next_node = some self.size_

instance {α : Type} (h : Heap α) (self : SingleLinkedList) : Decidable (SizeInv h self) := by
  unfold SizeInv; infer_instance

/-- The address of the first node of a chain given by its nodes, null if there is none. -/
def first {α : Type} : List (Nat × α) → Option Nat
  | [] => none
  | (a, _) :: _ => some a

/-- The nodes `ns` (address and value, in order) are linked one to the next in the
free store, the last one to null. -/
def Linked {α : Type} (cells : Nat → Option (Node α)) : List (Nat × α) → Prop
  | [] => True
  | (a, v) :: rest => cells a = some ⟨v, first rest⟩ ∧ Linked cells rest

/-- The list object `self` owns exactly the chain `ns` and caches its length. -/
def Rep {α : Type} (h : Heap α) (self : SingleLinkedList) (ns : List (Nat × α)) : Prop :=
  self.head_.next_node = first ns ∧ Linked h.cells ns ∧ self.size_ = ns.length

/-- The addresses of the nodes a list owns, found by walking its chain. -/
def chain_addrs {α : Type} (cells : Nat → Option (Node α)) : Nat → Option Nat → List Nat
  | _, none => []
  | 0, some _ => []
  | fuel + 1, some a =>
    match cells a with
    | none => []
    | some n => a :: chain_addrs cells fuel n.next_node

/-- The node addresses of the chain of a list. -/
def SingleLinkedList.nodes {α : Type} (h : Heap α) (self : SingleLinkedList) : List Nat :=
  chain_addrs h.cells h.brk self.head_.next_node

/-- Equality of two element sequences in the words of the specification: the same length
and pairwise equal elements at every index. -/
def equal_elements {α : Type} [BEq α] (xs ys : List α) : Prop :=
  xs.length = ys.length ∧
    ∀ i, i < xs.length → ∀ x y, xs[i]? = some x → ys[i]? = some y → (x == y) = true

/-- The outcome of the loop of `std::equal` on two element sequences. -/
def list_equal {α : Type} [BEq α] : List α → List α → Bool
  | x :: xs, y :: ys => if !(x == y) then false else list_equal xs ys
  | [], [] => true
  | _, _ => false

/-- The comparison `SingleLinkedList<int>{xs} == SingleLinkedList<int>{ys}`: both lists are
constructed in an empty free store with room for 64 nodes and then compared; `none`
if a constructor does not return. -/
def compare_initializer_lists (xs ys : List Int) : Option (Except Fault Bool) :=
  match SingleLinkedList.from_initializer_list (Heap.init Int 64) xs with
  | .ok (h1, a) _ =>
    match SingleLinkedList.from_initializer_list h1 ys with
    | .ok (h2, b) _ => some (operator_eq h2 a b)
    | _ => none
  | _ => none

/-- The lexicographic order of two element sequences in the words of the specification:
`xs` is a strict initial segment of `ys`, or at the first index at which the two
differ the element of `xs` is less than that of `ys`. -/
def less_elements {α : Type} (lt : α → α → Bool) (xs ys : List α) : Prop :=
  (∃ zs, zs ≠ [] ∧ ys = xs ++ zs) ∨
  (∃ i x y, xs[i]? = some x ∧ ys[i]? = some y ∧ xs.take i = ys.take i ∧ x ≠ y ∧
    lt x y = true)

/-- The outcome of the loop of `std::lexicographical_compare` on two element sequences. -/
def list_less {α : Type} (lt : α → α → Bool) : List α → List α → Bool
  | x :: xs, y :: ys =>
    if lt x y then true else if lt y x then false else list_less lt xs ys
  | [], _ :: _ => true
  | _, [] => false

/-- The comparison `SingleLinkedList<int>{xs} < SingleLinkedList<int>{ys}`: both lists are
constructed in an empty free store with room for 64 nodes and then compared; `none`
if a constructor does not return. -/
def less_initializer_lists (xs ys : List Int) : Option (Except Fault Bool) :=
  match SingleLinkedList.from_initializer_list (Heap.init Int 64) xs with
  | .ok (h1, a) _ =>
    match SingleLinkedList.from_initializer_list h1 ys with
    | .ok (h2, b) _ => some (operator_lt (fun x y => decide (x < y)) h2 a b)
    | _ => none
  | _ => none

/-- The chains of the lists `A` and `B` have no node in common. -/
def share_no_node {α : Type} (h : Heap α) (A B : SingleLinkedList) : Prop :=
  ∀ a ∈ A.nodes h, a ∉ B.nodes h

instance {α : Type} (h : Heap α) (A B : SingleLinkedList) : Decidable (share_no_node h A B) := by
  unfold share_no_node; infer_instance

/-- The chain after pushing the values `xs` one after the other to the front of the
chain `ns`, the first new node at address `b`. -/
def pushed {α : Type} : Nat → List α → List (Nat × α) → List (Nat × α)
  | _, [], ns => ns
  | b, x :: rest, ns => pushed (b + 1) rest ((b, x) :: ns)

/-- The calls `PushFront(v1)`, ..., `PushFront(vn)` one after the other; a call that
does not return normally ends the sequence. -/
def PushFront_calls {α : Type} :
    List α → Heap α → SingleLinkedList → Res (Heap α × SingleLinkedList) Unit
  | [], h, l => .ok (h, l) ()
  | v :: vs, h, l =>
    match SingleLinkedList.PushFront h l v with
    | .ok (h1, l1) _ => PushFront_calls vs h1 l1
    | .bad_alloc s => .bad_alloc s
    | .fault f => .fault f

/-- A free store holding the chains of two lists: `[1, 2, 3]` at the addresses 2, 1, 0
and `[7]` at the address 3. -/
def sample_heap : Heap Nat :=
  { cells := fun a =>
      match a with
      | 0 => some ⟨3, none⟩
      | 1 => some ⟨2, some 0⟩
      | 2 => some ⟨1, some 1⟩
      | 3 => some ⟨7, none⟩
      | _ => none,
    brk := 4, avail := 8 }

/-- The list `[1, 2, 3]` of `sample_heap`. -/
def sample_A : SingleLinkedList := { head_ := ⟨some 2⟩, size_ := 3 }

/-- The list `[7]` of `sample_heap`. -/
def sample_B : SingleLinkedList := { head_ := ⟨some 3⟩, size_ := 1 }

/-- Lists reachable through the public operations.  `Reachable h l`: the list object `l`
has come about, in a program whose free store is now `h`, by a constructor followed by
calls of the public operations within their contract (positions are positions of the
list, `PopFront` is called on a non-empty list, `EraseAfter` at a position with a
following element); an operation completes by returning or by throwing
`std::bad_alloc`.  `elsewhere` lets the rest of the program work on other objects: the
free store changes, the nodes of `l` do not. -/
inductive Reachable {α : Type} : Heap α → SingleLinkedList → Prop where
  | default_ctor (h : Heap α) (hv : h.Valid) : Reachable h SingleLinkedList.ctor
  | initializer_list (h : Heap α) (values : List α) (s : Heap α × SingleLinkedList)
      (hv : h.Valid)
      (hs : (SingleLinkedList.from_initializer_list h values).state = some s) :
      Reachable s.1 s.2
  | copy_ctor (h : Heap α) (other : SingleLinkedList) (s : Heap α × SingleLinkedList)
      (ho : Reachable h other) (hs : (SingleLinkedList.copy_ctor h other).state = some s) :
      Reachable s.1 s.2
  | assign (h : Heap α) (l rhs : SingleLinkedList) (s : Heap α × SingleLinkedList)
      (hl : Reachable h l) (hr : Reachable h rhs)
      (hs : (SingleLinkedList.assign h l (.other rhs)).state = some s) : Reachable s.1 s.2
  | self_assign (h : Heap α) (l : SingleLinkedList) (s : Heap α × SingleLinkedList)
      (hl : Reachable h l) (hs : (SingleLinkedList.assign h l .this).state = some s) :
      Reachable s.1 s.2
  | swap_this (h : Heap α) (l other : SingleLinkedList) (hl : Reachable h l)
      (ho : Reachable h other) : Reachable h (l.swap other).1
  | swap_other (h : Heap α) (l other : SingleLinkedList) (hl : Reachable h l)
      (ho : Reachable h other) : Reachable h (l.swap other).2
  | PushFront (h : Heap α) (l : SingleLinkedList) (v : α) (s : Heap α × SingleLinkedList)
      (hl : Reachable h l) (hs : (SingleLinkedList.PushFront h l v).state = some s) :
      Reachable s.1 s.2
  | PopFront (h : Heap α) (l : SingleLinkedList) (s : Heap α × SingleLinkedList)
      (hl : Reachable h l) (hne : l.IsEmpty = false)
      (hs : (SingleLinkedList.PopFront h l).state = some s) : Reachable s.1 s.2
  | InsertAfter (h : Heap α) (l : SingleLinkedList) (i : Nat) (pos : BasicIterator) (v : α)
      (s : Heap α × SingleLinkedList) (hl : Reachable h l) (hi : i ≤ l.GetSize)
      (hp : BasicIterator.advance h l i l.before_begin = .ok pos)
      (hs : (SingleLinkedList.InsertAfter h l pos v).state = some s) : Reachable s.1 s.2
  | EraseAfter (h : Heap α) (l : SingleLinkedList) (i : Nat) (pos : BasicIterator)
      (s : Heap α × SingleLinkedList) (hl : Reachable h l) (hi : i < l.GetSize)
      (hp : BasicIterator.advance h l i l.before_begin = .ok pos)
      (hs : (SingleLinkedList.EraseAfter h l pos).state = some s) : Reachable s.1 s.2
  | Clear (h : Heap α) (l : SingleLinkedList) (s : Heap α × SingleLinkedList)
      (hl : Reachable h l) (hs : (SingleLinkedList.Clear h l).state = some s) :
      Reachable s.1 s.2
  | elsewhere (h h2 : Heap α) (l : SingleLinkedList) (hl : Reachable h l) (hv : h2.Valid)
      (hf : ∀ a ∈ l.nodes h, h2.cells a = h.cells a) : Reachable h2 l

/-- The state after constructing the list `{1, 2, 3}` in an empty free store with room
for 8 nodes. -/
def sample_built : Heap Nat × SingleLinkedList :=
  match SingleLinkedList.from_initializer_list (Heap.init Nat 8) [1, 2, 3] with
  | .ok s _ => s
  | _ => (Heap.init Nat 0, {})

/-- The free store `sample_heap` with room for one more node only. -/
def sample_low : Heap Nat :=
  { cells := sample_heap.cells, brk := 4, avail := 1 }

/-! ## Chains in the free store -/

@[simp] theorem first_nil {α : Type} : first ([] : List (Nat × α)) = none := rfl

@[simp] theorem first_cons {α : Type} (a : Nat) (v : α) (rest : List (Nat × α)) :
    first ((a, v) :: rest) = some a := rfl

theorem Linked.frame {α : Type} {cells cells2 : Nat → Option (Node α)} :
    ∀ {ns : List (Nat × α)}, Linked cells ns → (∀ x ∈ ns, cells2 x.1 = cells x.1) →
      Linked cells2 ns
  | [], _, _ => trivial
  | (a, v) :: rest, hl, hf => by
    refine ⟨?_, Linked.frame hl.2 (fun x hx => hf x (List.mem_cons_of_mem _ hx))⟩
    rw [hf (a, v) (List.mem_cons_self _ _)]
    exact hl.1

theorem Linked.addr_lt {α : Type} {h : Heap α} (hv : h.Valid) :
    ∀ {ns : List (Nat × α)}, Linked h.cells ns → ∀ x ∈ ns, x.1 < h.brk
  | [], _, x, hx => by simp at hx
  | (a, v) :: rest, hl, x, hx => by
    rcases List.mem_cons.1 hx with rfl | hx
    · by_contra hc
      have := hv.1 a (Nat.le_of_not_lt hc)
      rw [hl.1] at this
      exact Option.noConfusion this
    · exact Linked.addr_lt hv hl.2 x hx

theorem Linked.unique {α : Type} {cells : Nat → Option (Node α)} :
    ∀ {xs ys : List (Nat × α)}, Linked cells xs → Linked cells ys → first xs = first ys →
      xs = ys
  | [], [], _, _, _ => rfl
  | [], (b, w) :: _, _, _, hf => by simp [first] at hf
  | (a, v) :: _, [], _, _, hf => by simp [first] at hf
  | (a, v) :: xs, (b, w) :: ys, hx, hy, hf => by
    simp only [first, Option.some.injEq] at hf
    subst hf
    have h1 := hx.1
    rw [hy.1] at h1
    simp only [Option.some.injEq, Node.mk.injEq] at h1
    have := Linked.unique hx.2 hy.2 h1.2.symm
    rw [h1.1, this]

theorem Linked.suffix {α : Type} {cells : Nat → Option (Node α)} :
    ∀ (xs ys : List (Nat × α)), Linked cells (xs ++ ys) → Linked cells ys
  | [], _, hl => hl
  | (_, _) :: xs, ys, hl => Linked.suffix xs ys hl.2

theorem Linked.nodup {α : Type} {cells : Nat → Option (Node α)} :
    ∀ {ns : List (Nat × α)}, Linked cells ns → (ns.map Prod.fst).Nodup
  | [], _ => List.nodup_nil
  | (a, v) :: rest, hl => by
    rw [List.map_cons, List.nodup_cons]
    refine ⟨?_, Linked.nodup hl.2⟩
    intro hmem
    obtain ⟨⟨b, w⟩, hb, hba⟩ := List.mem_map.1 hmem
    simp only at hba
    subst hba
    obtain ⟨r1, r2, hr⟩ := List.append_of_mem hb
    have hsuf : Linked cells ((b, w) :: r2) := Linked.suffix r1 _ (hr ▸ hl.2)
    have h1 := hl.1
    rw [hsuf.1] at h1
    simp only [Option.some.injEq, Node.mk.injEq] at h1
    have heq : r2 = rest := Linked.unique hsuf.2 hl.2 h1.2
    have hlen := congrArg List.length hr
    rw [← heq] at hlen
    simp at hlen
    omega

theorem Linked.length_le {α : Type} {h : Heap α} (hv : h.Valid) {ns : List (Nat × α)}
    (hl : Linked h.cells ns) : ns.length ≤ h.brk := by
  have hnd := Linked.nodup hl
  have hsub : (ns.map Prod.fst).toFinset ⊆ Finset.range h.brk := by
    intro a ha
    rw [List.mem_toFinset] at ha
    obtain ⟨x, hx, rfl⟩ := List.mem_map.1 ha
    exact Finset.mem_range.2 (Linked.addr_lt hv hl x hx)
  have hc := Finset.card_le_card hsub
  rw [List.toFinset_card_of_nodup hnd, Finset.card_range, List.length_map] at hc
  exact hc

theorem count_nodes_of_linked {α : Type} {cells : Nat → Option (Node α)} :
    ∀ (ns : List (Nat × α)) (fuel : Nat), Linked cells ns → ns.length ≤ fuel →
      count_nodes cells fuel (first ns) = some ns.length
  | [], fuel, _, _ => by cases fuel <;> simp [count_nodes]
  | (a, v) :: rest, 0, _, hle => by simp at hle
  | (a, v) :: rest, fuel + 1, hl, hle => by
    have ih := count_nodes_of_linked rest fuel hl.2 (by simpa using hle)
    show count_nodes cells (fuel + 1) (some a) = _
    simp only [count_nodes, hl.1, ih, List.length_cons]

theorem linked_of_count_nodes {α : Type} {cells : Nat → Option (Node α)} :
    ∀ {fuel : Nat} {p : Option Nat} {k : Nat}, count_nodes cells fuel p = some k →
      ∃ ns : List (Nat × α), first ns = p ∧ Linked cells ns ∧ ns.length = k
  | _, none, k, hc => by
    refine ⟨[], rfl, trivial, ?_⟩
    cases fuel_eq : k <;> simp_all [count_nodes]
  | 0, some a, k, hc => by simp [count_nodes] at hc
  | fuel + 1, some a, k, hc => by
    simp only [count_nodes] at hc
    cases hca : cells a with
    | none => simp [hca] at hc
    | some n =>
      simp only [hca] at hc
      cases hrec : count_nodes cells fuel n.next_node with
      | none => simp [hrec] at hc
      | some j =>
        simp only [hrec, Option.some.injEq] at hc
        obtain ⟨ns, hf, hl, hlen⟩ := linked_of_count_nodes hrec
        refine ⟨(a, n.value) :: ns, rfl, ⟨?_, hl⟩, ?_⟩
        · rw [hca, hf]
        · simp [hlen, hc]

/-- Under a valid free store the size invariant says that the list owns a chain whose
length is the cached size. -/
theorem sizeInv_iff_rep {α : Type} {h : Heap α} (hv : h.Valid) (self : SingleLinkedList) :
    SizeInv h self ↔ ∃ ns : List (Nat × α), Rep h self ns := by
  constructor
  · intro hs
    obtain ⟨ns, hf, hl, hlen⟩ := linked_of_count_nodes hs
    exact ⟨ns, hf.symm, hl, hlen.symm⟩
  · rintro ⟨ns, hf, hl, hlen⟩
    unfold SizeInv
    rw [hf, hlen]
    exact count_nodes_of_linked ns h.brk hl (Linked.length_le hv hl)

/-! ## Traversal and iterators over a chain -/

theorem vector_from_range_of_linked {α : Type} (h : Heap α) (owner : SingleLinkedList) :
    ∀ (ns : List (Nat × α)) (fuel : Nat), Linked h.cells ns → ns.length ≤ fuel →
      vector_from_range h owner fuel ⟨.heap (first ns)⟩ ⟨.heap none⟩ = .ok (ns.map Prod.snd)
  | [], fuel, _, _ => by
    unfold vector_from_range
    simp [BasicIterator.op_eq]
  | (a, v) :: rest, 0, _, hle => by simp at hle
  | (a, v) :: rest, fuel + 1, hl, hle => by
    have ih := vector_from_range_of_linked h owner rest fuel hl.2 (by simpa using hle)
    unfold vector_from_range
    simp [BasicIterator.op_eq, BasicIterator.deref, BasicIterator.incr, load_next, hl.1, ih]

theorem traverse_of_rep {α : Type} {h : Heap α} (hv : h.Valid) {self : SingleLinkedList}
    {ns : List (Nat × α)} (hr : Rep h self ns) :
    self.traverse h = .ok (ns.map Prod.snd) := by
  unfold SingleLinkedList.traverse SingleLinkedList.cbegin SingleLinkedList.cend
  rw [hr.1]
  exact vector_from_range_of_linked h self ns h.brk hr.2.1 (Linked.length_le hv hr.2.1)

theorem advance_of_linked {α : Type} (h : Heap α) (owner : SingleLinkedList) :
    ∀ (ns : List (Nat × α)) (k : Nat), Linked h.cells ns → k ≤ ns.length →
      BasicIterator.advance h owner k ⟨.heap (first ns)⟩ = .ok ⟨.heap (first (ns.drop k))⟩
  | ns, 0, _, _ => by simp [BasicIterator.advance]
  | [], k + 1, _, hle => by simp at hle
  | (a, v) :: rest, k + 1, hl, hle => by
    have ih := advance_of_linked h owner rest k hl.2 (by simpa using hle)
    simp [BasicIterator.advance, BasicIterator.incr, load_next, hl.1, ih]

theorem advance_before_begin {α : Type} (h : Heap α) (self : SingleLinkedList) (k : Nat) :
    BasicIterator.advance h self (k + 1) self.before_begin
      = BasicIterator.advance h self k self.cbegin := by
  simp [BasicIterator.advance, BasicIterator.incr, load_next, SingleLinkedList.before_begin,
    SingleLinkedList.cbegin]

/-! ## The operations on the chain a list owns -/

theorem rep_nil {α : Type} (h : Heap α) : Rep h ({} : SingleLinkedList) ([] : List (Nat × α)) :=
  ⟨rfl, trivial, rfl⟩

theorem valid_init (α : Type) {n : Nat} (hn : n < SIZE_MOD) : (Heap.init α n).Valid :=
  ⟨fun _ _ => rfl, by simpa [Heap.init] using hn⟩

theorem rep_length_lt {α : Type} {h : Heap α} (hv : h.Valid) {self : SingleLinkedList}
    {ns : List (Nat × α)} (hr : Rep h self ns) : ns.length + h.avail < SIZE_MOD :=
  Nat.lt_of_le_of_lt (Nat.add_le_add_right (Linked.length_le hv hr.2.1) _) hv.2

theorem PushFront_bad_alloc {α : Type} (h : Heap α) (self : SingleLinkedList) (v : α)
    (ha : h.avail = 0) : SingleLinkedList.PushFront h self v = .bad_alloc (h, self) := by
  simp [SingleLinkedList.PushFront, Heap.new_node, ha]

theorem PushFront_rep {α : Type} {h : Heap α} (hv : h.Valid) {self : SingleLinkedList}
    {ns : List (Nat × α)} (hr : Rep h self ns) (ha : 0 < h.avail) (v : α) :
    ∃ h2 self2, SingleLinkedList.PushFront h self v = .ok (h2, self2) () ∧ h2.Valid ∧
      Rep h2 self2 ((h.brk, v) :: ns) ∧ h2.brk = h.brk + 1 ∧ h2.avail = h.avail - 1 ∧
      (∀ a, a < h.brk → h2.cells a = h.cells a) := by
  have hlen := rep_length_lt hv hr
  refine ⟨{ cells := Function.update h.cells h.brk (some ⟨v, self.head_.next_node⟩),
            brk := h.brk + 1, avail := h.avail - 1 },
    { head_ := ⟨some h.brk⟩, size_ := (self.size_ + 1) % SIZE_MOD }, ?_, ?_, ?_, rfl, rfl, ?_⟩
  · simp only [SingleLinkedList.PushFront, Heap.new_node, Nat.ne_of_gt ha, if_false]
  · refine ⟨fun a hle => ?_, ?_⟩
    · have hne : a ≠ h.brk := by
        intro hc; subst hc; exact absurd hle (by simp)
      simp only [Function.update_noteq hne]
      exact hv.1 a (Nat.le_of_succ_le hle)
    · have hb : h.brk + h.avail < SIZE_MOD := hv.2
      show h.brk + 1 + (h.avail - 1) < SIZE_MOD
      omega
  · refine ⟨rfl, ⟨?_, ?_⟩, ?_⟩
    · simp only [Function.update_same, hr.1]
    · refine Linked.frame hr.2.1 (fun x hx => ?_)
      have := Linked.addr_lt hv hr.2.1 x hx
      exact Function.update_noteq (Nat.ne_of_lt this) _ _
    · show (self.size_ + 1) % SIZE_MOD = ns.length + 1
      rw [hr.2.2]
      apply Nat.mod_eq_of_lt
      omega
  · intro a hlt
    exact Function.update_noteq (Nat.ne_of_lt hlt) _ _

theorem valid_delete {α : Type} {h : Heap α} (hv : h.Valid) (a : Nat) :
    (h.delete_node a).Valid := by
  refine ⟨fun b hb => ?_, hv.2⟩
  show Function.update h.cells a none b = none
  by_cases hba : b = a
  · subst hba; simp
  · rw [Function.update_noteq hba]; exact hv.1 b hb

theorem PopFront_rep {α : Type} {h : Heap α} (hv : h.Valid) {self : SingleLinkedList}
    {a : Nat} {v : α} {rest : List (Nat × α)} (hr : Rep h self ((a, v) :: rest)) :
    ∃ self2, SingleLinkedList.PopFront h self = .ok (h.delete_node a, self2) () ∧
      (h.delete_node a).Valid ∧ Rep (h.delete_node a) self2 rest := by
  have hlen := rep_length_lt hv hr
  have hnd := Linked.nodup hr.2.1
  refine ⟨{ head_ := ⟨first rest⟩, size_ := (self.size_ + (SIZE_MOD - 1)) % SIZE_MOD }, ?_,
    valid_delete hv a, ?_⟩
  · simp only [SingleLinkedList.PopFront, hr.1, first_cons, hr.2.1.1]
  · refine ⟨rfl, ?_, ?_⟩
    · refine Linked.frame hr.2.1.2 (fun x hx => ?_)
      have hne : x.1 ≠ a := by
        intro hc
        rw [List.map_cons, List.nodup_cons] at hnd
        exact hnd.1 (List.mem_map.2 ⟨x, hx, hc⟩)
      exact Function.update_noteq hne _ _
    · show (self.size_ + (SIZE_MOD - 1)) % SIZE_MOD = rest.length
      rw [hr.2.2]
      simp only [List.length_cons] at hlen ⊢
      have : rest.length + 1 + (SIZE_MOD - 1) = rest.length + SIZE_MOD := by
        have : 0 < SIZE_MOD := by decide
        omega
      rw [this, Nat.add_mod_right]
      exact Nat.mod_eq_of_lt (by omega)

theorem Clear_loop_rep {α : Type} :
    ∀ (ns : List (Nat × α)) (h : Heap α) (self : SingleLinkedList), h.Valid → Rep h self ns →
      ∃ h2, SingleLinkedList.Clear_loop ns.length h self = .ok (h2, {}) () ∧ h2.Valid ∧
        h2.brk = h.brk ∧ h2.avail = h.avail ∧
        (∀ x ∈ ns, h2.cells x.1 = none) ∧
        (∀ a, a ∉ ns.map Prod.fst → h2.cells a = h.cells a)
  | [], h, self, hv, hr => by
    refine ⟨h, ?_, hv, rfl, rfl, by simp, fun _ _ => rfl⟩
    unfold SingleLinkedList.Clear_loop
    have h1 := hr.1
    have h2 := hr.2.2
    cases self with
    | mk hd sz =>
      cases hd with
      | mk nx =>
        simp only [first_nil, List.length_nil] at h1 h2
        subst h1; subst h2
        simp
  | (a, v) :: rest, h, self, hv, hr => by
    obtain ⟨self2, hpop, hv2, hr2⟩ := PopFront_rep hv hr
    obtain ⟨h3, hc, hv3, hb, hav, hdel, hfr⟩ := Clear_loop_rep rest _ self2 hv2 hr2
    have hnd := Linked.nodup hr.2.1
    rw [List.map_cons, List.nodup_cons] at hnd
    refine ⟨h3, ?_, hv3, hb, hav, ?_, ?_⟩
    · unfold SingleLinkedList.Clear_loop
      have hsz : self.size_ ≠ 0 := by rw [hr.2.2]; simp
      simp only [hsz, if_false, List.length_cons, hr.1, first_cons, hr.2.1.1]
      simp only [SingleLinkedList.PopFront, hr.1, first_cons, hr.2.1.1, Res.ok.injEq,
        Prod.mk.injEq, true_and, and_true] at hpop
      rw [hpop]
      exact hc
    · intro x hx
      rcases List.mem_cons.1 hx with rfl | hx
      · rw [hfr _ hnd.1]
        show Function.update h.cells _ none _ = none
        simp
      · exact hdel x hx
    · intro b hb2
      rw [List.map_cons, List.mem_cons, not_or] at hb2
      rw [hfr b hb2.2]
      exact Function.update_noteq hb2.1 _ _

theorem Clear_rep {α : Type} {h : Heap α} (hv : h.Valid) {self : SingleLinkedList}
    {ns : List (Nat × α)} (hr : Rep h self ns) :
    ∃ h2, SingleLinkedList.Clear h self = .ok (h2, {}) () ∧ h2.Valid ∧
      h2.brk = h.brk ∧ h2.avail = h.avail ∧
      (∀ x ∈ ns, h2.cells x.1 = none) ∧
      (∀ a, a ∉ ns.map Prod.fst → h2.cells a = h.cells a) := by
  unfold SingleLinkedList.Clear
  rw [hr.2.2]
  exact Clear_loop_rep ns h self hv hr

/-! ## Splicing a node into and out of the middle of a chain -/

theorem first_append_cons {α : Type} (pre : List (Nat × α)) (a : Nat) (x : α)
    (t t2 : List (Nat × α)) : first (pre ++ (a, x) :: t) = first (pre ++ (a, x) :: t2) := by
  cases pre with
  | nil => rfl
  | cons c pre => cases c; rfl

theorem Linked.mid {α : Type} {cells : Nat → Option (Node α)} (pre : List (Nat × α))
    (a : Nat) (x : α) (post : List (Nat × α)) (hl : Linked cells (pre ++ (a, x) :: post)) :
    cells a = some ⟨x, first post⟩ :=
  (Linked.suffix pre _ hl).1

theorem Linked.insert {α : Type} {cells : Nat → Option (Node α)} (b : Nat) (v : α) :
    ∀ (pre : List (Nat × α)) (a : Nat) (x : α) (post : List (Nat × α)),
      Linked cells (pre ++ (a, x) :: post) → (∀ y ∈ pre ++ (a, x) :: post, y.1 ≠ b) →
      Linked (Function.update (Function.update cells b (some ⟨v, first post⟩)) a
        (some ⟨x, some b⟩)) (pre ++ (a, x) :: (b, v) :: post)
  | [], a, x, post, hl, hb => by
    have hnd := Linked.nodup hl
    simp only [List.nil_append, List.map_cons, List.nodup_cons] at hnd hl hb ⊢
    have hab : a ≠ b := hb (a, x) (List.mem_cons_self _ _)
    refine ⟨by simp, ?_, ?_⟩
    · rw [Function.update_noteq (Ne.symm hab), Function.update_same]
    · refine Linked.frame hl.2 (fun y hy => ?_)
      have h1 : y.1 ≠ a := fun hc => hnd.1 (List.mem_map.2 ⟨y, hy, hc⟩)
      have h2 : y.1 ≠ b := hb y (List.mem_cons_of_mem _ hy)
      rw [Function.update_noteq h1, Function.update_noteq h2]
  | (c, y) :: pre, a, x, post, hl, hb => by
    have hnd := Linked.nodup hl
    simp only [List.cons_append, List.map_cons, List.nodup_cons, List.map_append,
      List.mem_append, List.mem_cons, not_or] at hnd
    have hca : c ≠ a := hnd.1.2.1
    have hcb : c ≠ b := hb (c, y) (List.mem_cons_self _ _)
    refine ⟨?_, Linked.insert b v pre a x post hl.2
      (fun z hz => hb z (List.mem_cons_of_mem _ hz))⟩
    rw [Function.update_noteq hca, Function.update_noteq hcb]
    show cells c = some ⟨y, first (pre ++ (a, x) :: (b, v) :: post)⟩
    rw [first_append_cons pre a x _ post]
    exact hl.1

theorem Linked.erase {α : Type} {cells : Nat → Option (Node α)} :
    ∀ (pre : List (Nat × α)) (a : Nat) (x : α) (t : Nat) (y : α) (post : List (Nat × α)),
      Linked cells (pre ++ (a, x) :: (t, y) :: post) →
      Linked (Function.update (Function.update cells a (some ⟨x, first post⟩)) t none)
        (pre ++ (a, x) :: post)
  | [], a, x, t, y, post, hl => by
    have hnd := Linked.nodup hl
    simp only [List.nil_append, List.map_cons, List.nodup_cons, List.mem_cons, not_or] at hnd hl ⊢
    have hat : a ≠ t := hnd.1.1
    refine ⟨?_, ?_⟩
    · rw [Function.update_noteq hat, Function.update_same]
    · refine Linked.frame hl.2.2 (fun z hz => ?_)
      have h1 : z.1 ≠ a := fun hc => hnd.1.2 (List.mem_map.2 ⟨z, hz, hc⟩)
      have h2 : z.1 ≠ t := fun hc => hnd.2.1 (List.mem_map.2 ⟨z, hz, hc⟩)
      rw [Function.update_noteq h2, Function.update_noteq h1]
  | (c, w) :: pre, a, x, t, y, post, hl => by
    have hnd := Linked.nodup hl
    simp only [List.cons_append, List.map_cons, List.nodup_cons, List.map_append,
      List.mem_append, List.mem_cons, not_or] at hnd
    have hca : c ≠ a := hnd.1.2.1
    have hct : c ≠ t := hnd.1.2.2.1
    refine ⟨?_, Linked.erase pre a x t y post hl.2⟩
    rw [Function.update_noteq hct, Function.update_noteq hca]
    show cells c = some ⟨w, first (pre ++ (a, x) :: post)⟩
    rw [first_append_cons pre a x _ ((t, y) :: post)]
    exact hl.1

theorem InsertAfter_rep {α : Type} {h : Heap α} (hv : h.Valid) {self : SingleLinkedList}
    (pre : List (Nat × α)) (a : Nat) (x : α) (post : List (Nat × α))
    (hr : Rep h self (pre ++ (a, x) :: post)) (ha : 0 < h.avail) (v : α) :
    ∃ h2 self2, SingleLinkedList.InsertAfter h self ⟨.heap (some a)⟩ v
        = .ok (h2, self2) ⟨.heap (some h.brk)⟩ ∧ h2.Valid ∧
      Rep h2 self2 (pre ++ (a, x) :: (h.brk, v) :: post) ∧ h2.brk = h.brk + 1 ∧
      h2.avail = h.avail - 1 := by
  have hlen := rep_length_lt hv hr
  have hb : h.brk + h.avail < SIZE_MOD := hv.2
  have hca := Linked.mid pre a x post hr.2.1
  have halt : a < h.brk := Linked.addr_lt hv hr.2.1 (a, x) (by simp)
  have hne : a ≠ h.brk := Nat.ne_of_lt halt
  refine ⟨{ cells := Function.update (Function.update h.cells h.brk (some ⟨v, first post⟩)) a
              (some ⟨x, some h.brk⟩), brk := h.brk + 1, avail := h.avail - 1 },
    { self with size_ := (self.size_ + 1) % SIZE_MOD }, ?_, ?_, ?_, rfl, rfl⟩
  · simp [SingleLinkedList.InsertAfter, load_next, store_next, Heap.new_node, hca,
      Nat.ne_of_gt ha, Function.update_noteq hne]
  · refine ⟨fun c hc => ?_, ?_⟩
    · have h1 : c ≠ a := by intro hh; subst hh; simp at hc; omega
      have h2 : c ≠ h.brk := by intro hh; subst hh; simp at hc
      simp only [Function.update_noteq h1, Function.update_noteq h2]
      exact hv.1 c (Nat.le_of_succ_le hc)
    · show h.brk + 1 + (h.avail - 1) < SIZE_MOD
      omega
  · refine ⟨?_, ?_, ?_⟩
    · show self.head_.next_node = _
      rw [hr.1]
      exact first_append_cons pre a x _ _
    · exact Linked.insert h.brk v pre a x post hr.2.1
        (fun y hy => Nat.ne_of_lt (Linked.addr_lt hv hr.2.1 y hy))
    · show (self.size_ + 1) % SIZE_MOD = _
      rw [hr.2.2]
      simp only [List.length_append, List.length_cons] at hlen ⊢
      apply Nat.mod_eq_of_lt
      omega

theorem EraseAfter_rep {α : Type} {h : Heap α} (hv : h.Valid) {self : SingleLinkedList}
    (pre : List (Nat × α)) (a : Nat) (x : α) (t : Nat) (y : α) (post : List (Nat × α))
    (hr : Rep h self (pre ++ (a, x) :: (t, y) :: post)) :
    ∃ h2 self2, SingleLinkedList.EraseAfter h self ⟨.heap (some a)⟩
        = .ok (h2, self2) ⟨.heap (first post)⟩ ∧ h2.Valid ∧
      Rep h2 self2 (pre ++ (a, x) :: post) ∧ h2.brk = h.brk ∧ h2.avail = h.avail := by
  have hlen := rep_length_lt hv hr
  have hca := Linked.mid pre a x _ hr.2.1
  have hct : h.cells t = some ⟨y, first post⟩ := by
    have := Linked.mid (pre ++ [(a, x)]) t y post (by simpa using hr.2.1)
    exact this
  have hnd := Linked.nodup (Linked.suffix pre _ hr.2.1)
  simp only [List.map_cons, List.nodup_cons, List.mem_cons, not_or] at hnd
  have hat : a ≠ t := hnd.1.1
  refine ⟨{ h with cells := Function.update (Function.update h.cells a
              (some ⟨x, first post⟩)) t none },
    { self with size_ := (self.size_ + (SIZE_MOD - 1)) % SIZE_MOD }, ?_, ?_, ?_, rfl, rfl⟩
  · simp [SingleLinkedList.EraseAfter, load_next, store_next, Heap.delete_node, hca, hct,
      Function.update_noteq hat]
  · refine ⟨fun c hc => ?_, hv.2⟩
    show Function.update (Function.update h.cells a (some ⟨x, first post⟩)) t none c = none
    by_cases h1 : c = t
    · subst h1; simp
    · rw [Function.update_noteq h1]
      have h2 : c ≠ a := by
        intro hh; subst hh
        have := hv.1 c hc
        rw [hca] at this
        exact Option.noConfusion this
      rw [Function.update_noteq h2]
      exact hv.1 c hc
  · refine ⟨?_, Linked.erase pre a x t y post hr.2.1, ?_⟩
    · show self.head_.next_node = _
      rw [hr.1]
      exact first_append_cons pre a x _ _
    · show (self.size_ + (SIZE_MOD - 1)) % SIZE_MOD = _
      rw [hr.2.2]
      simp only [List.length_append, List.length_cons] at hlen ⊢
      have h0 : 0 < SIZE_MOD := by decide
      have : pre.length + (post.length + 1 + 1) + (SIZE_MOD - 1)
          = pre.length + (post.length + 1) + SIZE_MOD := by omega
      rw [this, Nat.add_mod_right]
      apply Nat.mod_eq_of_lt
      omega

/-! ## The sentinel as a position -/

theorem InsertAfter_before_begin {α : Type} (h : Heap α) (self : SingleLinkedList) (v : α) :
    SingleLinkedList.InsertAfter h self self.before_begin v =
      match SingleLinkedList.PushFront h self v with
      | .ok s _ => .ok s s.2.cbegin
      | .bad_alloc s => .bad_alloc s
      | .fault f => .fault f := by
  by_cases ha : h.avail = 0
  · simp [SingleLinkedList.InsertAfter, SingleLinkedList.PushFront,
      SingleLinkedList.before_begin, load_next, Heap.new_node, ha]
  · simp [SingleLinkedList.InsertAfter, SingleLinkedList.PushFront,
      SingleLinkedList.before_begin, SingleLinkedList.cbegin, load_next, store_next,
      Heap.new_node, ha]

theorem EraseAfter_before_begin {α : Type} (h : Heap α) (self : SingleLinkedList) :
    SingleLinkedList.EraseAfter h self self.before_begin =
      match SingleLinkedList.PopFront h self with
      | .ok s _ => .ok s s.2.cbegin
      | .bad_alloc s => .bad_alloc s
      | .fault f => .fault f := by
  cases hp : self.head_.next_node with
  | none =>
    simp [SingleLinkedList.EraseAfter, SingleLinkedList.PopFront,
      SingleLinkedList.before_begin, load_next, hp]
  | some t =>
    cases hc : h.cells t with
    | none =>
      simp [SingleLinkedList.EraseAfter, SingleLinkedList.PopFront,
        SingleLinkedList.before_begin, load_next, hp, hc]
    | some n =>
      simp [SingleLinkedList.EraseAfter, SingleLinkedList.PopFront,
        SingleLinkedList.before_begin, SingleLinkedList.cbegin, load_next, store_next, hp, hc]

/-! ## Copying -/

theorem pushed_map_snd {α : Type} :
    ∀ (xs : List α) (b : Nat) (ns : List (Nat × α)),
      (pushed b xs ns).map Prod.snd = xs.reverse ++ ns.map Prod.snd
  | [], _, _ => by simp [pushed]
  | x :: rest, b, ns => by
    simp [pushed, pushed_map_snd rest (b + 1) ((b, x) :: ns)]

theorem pushed_length {α : Type} :
    ∀ (xs : List α) (b : Nat) (ns : List (Nat × α)),
      (pushed b xs ns).length = xs.length + ns.length
  | [], _, _ => by simp [pushed]
  | x :: rest, b, ns => by
    simp [pushed, pushed_length rest (b + 1) ((b, x) :: ns)]
    omega

theorem pushed_mem {α : Type} :
    ∀ (xs : List α) (b : Nat) (ns : List (Nat × α)) (y : Nat × α),
      y ∈ pushed b xs ns → y ∈ ns ∨ b ≤ y.1
  | [], _, _, _, hy => Or.inl hy
  | x :: rest, b, ns, y, hy => by
    rcases pushed_mem rest (b + 1) ((b, x) :: ns) y hy with h1 | h1
    · rcases List.mem_cons.1 h1 with rfl | h2
      · exact Or.inr (Nat.le_refl _)
      · exact Or.inl h2
    · exact Or.inr (Nat.le_of_succ_le h1)

theorem CopyFromValues_loop_rep {α : Type} :
    ∀ (xs : List α) (h : Heap α) (tmp : SingleLinkedList) (ns : List (Nat × α)),
      h.Valid → Rep h tmp ns →
      ∃ h2 tmp2, SingleLinkedList.CopyFromValues_loop xs h tmp
          = (if xs.length ≤ h.avail then .ok (h2, tmp2) () else .bad_alloc (h2, tmp2)) ∧
        h2.Valid ∧ Rep h2 tmp2 (pushed h.brk (xs.take h.avail) ns) ∧
        h2.brk = h.brk + min xs.length h.avail ∧ h2.avail = h.avail - xs.length ∧
        (∀ a, a < h.brk → h2.cells a = h.cells a)
  | [], h, tmp, ns, hv, hr => by
    refine ⟨h, tmp, ?_, hv, ?_, ?_, ?_, fun _ _ => rfl⟩
    · simp [SingleLinkedList.CopyFromValues_loop]
    · simpa [pushed] using hr
    · simp
    · simp
  | x :: rest, h, tmp, ns, hv, hr => by
    by_cases ha : h.avail = 0
    · refine ⟨h, tmp, ?_, hv, ?_, ?_, ?_, fun _ _ => rfl⟩
      · simp [SingleLinkedList.CopyFromValues_loop, PushFront_bad_alloc h tmp x ha, ha]
      · simpa [pushed, ha] using hr
      · simp [ha]
      · simp [ha]
    · obtain ⟨k, hk⟩ : ∃ k, h.avail = k + 1 := Nat.exists_eq_succ_of_ne_zero ha
      obtain ⟨h1, tmp1, hp, hv1, hr1, hb1, ha1, hf1⟩ :=
        PushFront_rep hv hr (Nat.pos_of_ne_zero ha) x
      obtain ⟨h2, tmp2, hl, hv2, hr2, hb2, ha2, hf2⟩ :=
        CopyFromValues_loop_rep rest h1 tmp1 _ hv1 hr1
      refine ⟨h2, tmp2, ?_, hv2, ?_, ?_, ?_, ?_⟩
      · simp only [SingleLinkedList.CopyFromValues_loop, hp, hl, ha1, hk, List.length_cons]
        simp
      · rw [hk, List.take_succ_cons]
        simp only [pushed]
        rw [hb1, ha1, hk] at hr2
        simpa using hr2
      · rw [hb2, hb1, ha1, hk]
        simp only [List.length_cons]
        omega
      · rw [ha2, ha1]
        simp only [List.length_cons]
        omega
      · intro a hlt
        rw [hf2 a (by omega), hf1 a hlt]

theorem leave_scope_rep {α : Type} {h : Heap α} (hv : h.Valid) {tmp : SingleLinkedList}
    {ns : List (Nat × α)} (hr : Rep h tmp ns) (keep : SingleLinkedList) (thrown : Bool) :
    ∃ h2, SingleLinkedList.leave_scope h tmp keep thrown
        = (if thrown then .bad_alloc (h2, keep) else .ok (h2, keep) ()) ∧ h2.Valid ∧
      h2.brk = h.brk ∧ h2.avail = h.avail ∧ (∀ x ∈ ns, h2.cells x.1 = none) ∧
      (∀ a, a ∉ ns.map Prod.fst → h2.cells a = h.cells a) := by
  obtain ⟨h2, hc, hv2, hb, ha, hdel, hfr⟩ := Clear_rep hv hr
  refine ⟨h2, ?_, hv2, hb, ha, hdel, hfr⟩
  simp only [SingleLinkedList.leave_scope, SingleLinkedList.dtor, hc]

theorem swap_eq (a b : SingleLinkedList) : a.swap b = (b, a) := rfl

theorem Rep.transfer {α : Type} {h h2 : Heap α} {self : SingleLinkedList} {ns : List (Nat × α)}
    (hr : Rep h self ns) (hf : ∀ x ∈ ns, h2.cells x.1 = h.cells x.1) : Rep h2 self ns :=
  ⟨hr.1, Linked.frame hr.2.1 hf, hr.2.2⟩

theorem chain_addrs_of_linked {α : Type} {cells : Nat → Option (Node α)} :
    ∀ (ns : List (Nat × α)) (fuel : Nat), Linked cells ns → ns.length ≤ fuel →
      chain_addrs cells fuel (first ns) = ns.map Prod.fst
  | [], fuel, _, _ => by cases fuel <;> simp [chain_addrs]
  | (a, v) :: rest, 0, _, hle => by simp at hle
  | (a, v) :: rest, fuel + 1, hl, hle => by
    have ih := chain_addrs_of_linked rest fuel hl.2 (by simpa using hle)
    show chain_addrs cells (fuel + 1) (some a) = _
    simp only [chain_addrs, hl.1, ih, List.map_cons]

theorem nodes_of_rep {α : Type} {h : Heap α} (hv : h.Valid) {self : SingleLinkedList}
    {ns : List (Nat × α)} (hr : Rep h self ns) : self.nodes h = ns.map Prod.fst := by
  unfold SingleLinkedList.nodes
  rw [hr.1]
  exact chain_addrs_of_linked ns h.brk hr.2.1 (Linked.length_le hv hr.2.1)

theorem assign_rep {α : Type} {h : Heap α} (hv : h.Valid) {self rhs : SingleLinkedList}
    {ns ms : List (Nat × α)} (hs : Rep h self ns) (hr : Rep h rhs ms)
    (ha : ms.length ≤ h.avail) :
    ∃ h2 self2, SingleLinkedList.assign h self (.other rhs) = .ok (h2, self2) () ∧ h2.Valid ∧
      Rep h2 self2 (pushed h.brk (ms.map Prod.snd).reverse []) ∧
      h2.brk = h.brk + ms.length ∧ h2.avail = h.avail - ms.length ∧
      (∀ x ∈ ns, h2.cells x.1 = none) ∧
      (∀ a, a < h.brk → a ∉ ns.map Prod.fst → h2.cells a = h.cells a) := by
  have htr := traverse_of_rep hv hr
  obtain ⟨h1, tmp1, hl, hv1, hr1, hb1, ha1, hf1⟩ :=
    CopyFromValues_loop_rep (ms.map Prod.snd).reverse h {} [] hv (rep_nil h)
  have hlen : (ms.map Prod.snd).reverse.length = ms.length := by simp
  rw [hlen, if_pos ha] at hl
  rw [List.take_of_length_le (by rw [hlen]; exact ha)] at hr1
  rw [hlen, Nat.min_eq_left ha] at hb1
  rw [hlen] at ha1
  have hs1 : Rep h1 self ns :=
    hs.transfer (fun x hx => hf1 x.1 (Linked.addr_lt hv hs.2.1 x hx))
  obtain ⟨h2, hls, hv2, hb2, ha2, hdel, hfr⟩ := leave_scope_rep hv1 hs1 tmp1 false
  refine ⟨h2, tmp1, ?_, hv2, ?_, by rw [hb2, hb1], by rw [ha2, ha1], hdel, ?_⟩
  · simp only [SingleLinkedList.assign, SingleLinkedList.CopyFromValues, Container.to_vector,
      htr, hl, swap_eq]
    simpa using hls
  · refine hr1.transfer (fun x hx => hfr x.1 (fun hmem => ?_))
    obtain ⟨y, hy, hxy⟩ := List.mem_map.1 hmem
    have h1 := Linked.addr_lt hv hs.2.1 y hy
    rcases pushed_mem _ _ _ x hx with h2 | h2
    · simp at h2
    · omega
  · intro a hlt hmem
    rw [hfr a hmem, hf1 a hlt]

theorem assign_rep_bad_alloc {α : Type} {h : Heap α} (hv : h.Valid)
    (self : SingleLinkedList) {rhs : SingleLinkedList} {ms : List (Nat × α)}
    (hr : Rep h rhs ms) (ha : h.avail < ms.length) :
    ∃ h2, SingleLinkedList.assign h self (.other rhs) = .bad_alloc (h2, self) ∧ h2.Valid ∧
      (∀ a, a < h.brk → h2.cells a = h.cells a) := by
  have htr := traverse_of_rep hv hr
  obtain ⟨h1, tmp1, hl, hv1, hr1, hb1, ha1, hf1⟩ :=
    CopyFromValues_loop_rep (ms.map Prod.snd).reverse h {} [] hv (rep_nil h)
  have hlen : (ms.map Prod.snd).reverse.length = ms.length := by simp
  rw [hlen, if_neg (Nat.not_le_of_gt ha)] at hl
  obtain ⟨h2, hls, hv2, hb2, ha2, hdel, hfr⟩ := leave_scope_rep hv1 hr1 self true
  refine ⟨h2, ?_, hv2, ?_⟩
  · simp only [SingleLinkedList.assign, SingleLinkedList.CopyFromValues, Container.to_vector,
      htr, hl]
    simpa using hls
  · intro a hlt
    rw [hfr a (fun hmem => ?_), hf1 a hlt]
    obtain ⟨y, hy, hxy⟩ := List.mem_map.1 hmem
    rcases pushed_mem _ _ _ y hy with h3 | h3
    · simp at h3
    · omega

theorem copy_ctor_rep {α : Type} {h : Heap α} (hv : h.Valid) {other : SingleLinkedList}
    {ms : List (Nat × α)} (hr : Rep h other ms) (ha : ms.length ≤ h.avail) :
    ∃ h2 self2, SingleLinkedList.copy_ctor h other = .ok (h2, self2) () ∧ h2.Valid ∧
      Rep h2 self2 (pushed h.brk (ms.map Prod.snd).reverse []) ∧
      h2.brk = h.brk + ms.length ∧ h2.avail = h.avail - ms.length ∧
      (∀ a, a < h.brk → h2.cells a = h.cells a) := by
  obtain ⟨h1, tmp1, has, hv1, hr1, hb1, ha1, _, hf1⟩ := assign_rep hv (rep_nil h) hr ha
  obtain ⟨h2, hls, hv2, hb2, ha2, _, hfr⟩ := leave_scope_rep hv1 (rep_nil h1) tmp1 false
  refine ⟨h2, tmp1, ?_, hv2, ?_, by rw [hb2, hb1], by rw [ha2, ha1], ?_⟩
  · simp only [SingleLinkedList.copy_ctor, has, swap_eq]
    simpa using hls
  · exact hr1.transfer (fun x _ => hfr x.1 (by simp))
  · intro a hlt
    rw [hfr a (by simp), hf1 a hlt (by simp)]

theorem from_initializer_list_rep {α : Type} {h : Heap α} (hv : h.Valid) (values : List α)
    (ha : values.length ≤ h.avail) :
    ∃ h2 self2, SingleLinkedList.from_initializer_list h values = .ok (h2, self2) () ∧
      h2.Valid ∧ Rep h2 self2 (pushed h.brk values.reverse []) ∧
      h2.brk = h.brk + values.length ∧ h2.avail = h.avail - values.length ∧
      (∀ a, a < h.brk → h2.cells a = h.cells a) := by
  obtain ⟨h1, tmp1, hl, hv1, hr1, hb1, ha1, hf1⟩ :=
    CopyFromValues_loop_rep values.reverse h {} [] hv (rep_nil h)
  have hlen : values.reverse.length = values.length := by simp
  rw [hlen, if_pos ha] at hl
  rw [List.take_of_length_le (by rw [hlen]; exact ha)] at hr1
  rw [hlen, Nat.min_eq_left ha] at hb1
  rw [hlen] at ha1
  obtain ⟨h2, hls, hv2, hb2, ha2, _, hfr⟩ := leave_scope_rep hv1 (rep_nil h1) tmp1 false
  refine ⟨h2, tmp1, ?_, hv2, ?_, by rw [hb2, hb1], by rw [ha2, ha1], ?_⟩
  · simp only [SingleLinkedList.from_initializer_list, SingleLinkedList.CopyFromValues,
      Container.to_vector, hl, swap_eq]
    simpa using hls
  · exact hr1.transfer (fun x _ => hfr x.1 (by simp))
  · intro a hlt
    rw [hfr a (by simp), hf1 a hlt]

/-! ## From the executable vocabulary to chains and back -/

theorem rep_of_inv {α : Type} {h : Heap α} (hv : h.Valid) {self : SingleLinkedList}
    (hinv : SizeInv h self) {xs : List α} (hx : self.traverse h = .ok xs) :
    ∃ ns : List (Nat × α), Rep h self ns ∧ ns.map Prod.snd = xs := by
  obtain ⟨ns, hr⟩ := (sizeInv_iff_rep hv self).1 hinv
  refine ⟨ns, hr, ?_⟩
  have := traverse_of_rep hv hr
  rw [hx] at this
  exact (Except.ok.inj this).symm

theorem inv_of_rep {α : Type} {h : Heap α} (hv : h.Valid) {self : SingleLinkedList}
    {ns : List (Nat × α)} (hr : Rep h self ns) : SizeInv h self :=
  (sizeInv_iff_rep hv self).2 ⟨ns, hr⟩

theorem traverse_total {α : Type} {h : Heap α} (hv : h.Valid) {self : SingleLinkedList}
    (hinv : SizeInv h self) : ∃ xs : List α, self.traverse h = .ok xs := by
  obtain ⟨ns, hr⟩ := (sizeInv_iff_rep hv self).1 hinv
  exact ⟨_, traverse_of_rep hv hr⟩

theorem PushFront_calls_eq_loop {α : Type} :
    ∀ (vs : List α) (h : Heap α) (l : SingleLinkedList),
      PushFront_calls vs h l = SingleLinkedList.CopyFromValues_loop vs h l
  | [], _, _ => rfl
  | v :: vs, h, l => by
    simp only [PushFront_calls, SingleLinkedList.CopyFromValues_loop]
    cases SingleLinkedList.PushFront h l v with
    | ok s r => exact PushFront_calls_eq_loop vs s.1 s.2
    | bad_alloc s => rfl
    | fault f => rfl

theorem sample_valid : sample_heap.Valid := by
  refine ⟨fun a ha => ?_, by decide⟩
  match a, ha with
  | a + 4, _ => rfl

theorem disjoint_of_nodes {α : Type} {h : Heap α} (hv : h.Valid) {A B : SingleLinkedList}
    {ns ms : List (Nat × α)} (hA : Rep h A ns) (hB : Rep h B ms)
    (hd : share_no_node h A B) : ∀ x ∈ ns, ∀ y ∈ ms, x.1 ≠ y.1 := by
  unfold share_no_node at hd
  rw [nodes_of_rep hv hA, nodes_of_rep hv hB] at hd
  intro x hx y hy hxy
  exact hd x.1 (List.mem_map.2 ⟨x, hx, rfl⟩) (List.mem_map.2 ⟨y, hy, hxy.symm⟩)

theorem nodes_disjoint {α : Type} {h : Heap α} (hv : h.Valid) {A B : SingleLinkedList}
    {ns ms : List (Nat × α)} (hA : Rep h A ns) (hB : Rep h B ms)
    (hd : ∀ x ∈ ns, ∀ y ∈ ms, x.1 ≠ y.1) : share_no_node h A B := by
  unfold share_no_node
  rw [nodes_of_rep hv hA, nodes_of_rep hv hB]
  intro a ha hb
  obtain ⟨x, hx, rfl⟩ := List.mem_map.1 ha
  obtain ⟨y, hy, hxy⟩ := List.mem_map.1 hb
  exact hd x hx y hy hxy.symm

/-- What copy assignment `B = A` and copy construction `B(A)` both achieve. -/
theorem copy_result {α : Type} {h : Heap α} (hv : h.Valid) {A B : SingleLinkedList}
    {ns ms : List (Nat × α)} (hA : Rep h A ns) (hB : Rep h B ms)
    (hd : ∀ x ∈ ns, ∀ y ∈ ms, x.1 ≠ y.1) (ha : ns.length ≤ h.avail)
    (r : Res (Heap α × SingleLinkedList) Unit)
    (hr : r = SingleLinkedList.assign h B (.other A) ∨ r = SingleLinkedList.copy_ctor h A) :
    ∃ h2 B2 cs, r = .ok (h2, B2) () ∧ h2.Valid ∧ Rep h2 B2 cs ∧
      cs.map Prod.snd = ns.map Prod.snd ∧ Rep h2 A ns ∧ (∀ x ∈ ns, ∀ y ∈ cs, x.1 ≠ y.1) := by
  have hfresh : ∀ x ∈ ns, ∀ y ∈ pushed h.brk (ns.map Prod.snd).reverse [], x.1 ≠ y.1 := by
    intro x hx y hy
    have h1 := Linked.addr_lt hv hA.2.1 x hx
    rcases pushed_mem _ _ _ y hy with h2 | h2
    · simp at h2
    · omega
  have hmap : (pushed h.brk (ns.map Prod.snd).reverse []).map Prod.snd = ns.map Prod.snd := by
    rw [pushed_map_snd]; simp
  rcases hr with rfl | rfl
  · obtain ⟨h2, B2, he, hv2, hr2, _, _, _, hf⟩ := assign_rep hv hB hA ha
    refine ⟨h2, B2, _, he, hv2, hr2, hmap, ?_, hfresh⟩
    refine hA.transfer (fun x hx => hf x.1 (Linked.addr_lt hv hA.2.1 x hx) (fun hmem => ?_))
    obtain ⟨y, hy, hxy⟩ := List.mem_map.1 hmem
    exact hd x hx y hy hxy.symm
  · obtain ⟨h2, B2, he, hv2, hr2, _, _, hf⟩ := copy_ctor_rep hv hA ha
    refine ⟨h2, B2, _, he, hv2, hr2, hmap, ?_, hfresh⟩
    exact hA.transfer (fun x hx => hf x.1 (Linked.addr_lt hv hA.2.1 x hx))

/-- Pushing to or popping from a list leaves the chain of a list with other nodes as
it is. -/
theorem other_list_frame {α : Type} {h : Heap α} (hv : h.Valid) {A B : SingleLinkedList}
    {ns ms : List (Nat × α)} (hA : Rep h A ns) (hB : Rep h B ms)
    (hd : ∀ x ∈ ns, ∀ y ∈ ms, x.1 ≠ y.1) :
    (∀ v, ∃ s, (SingleLinkedList.PushFront h A v).state = some s ∧ s.1.Valid ∧ Rep s.1 B ms) ∧
    (A.size_ ≠ 0 → ∃ s, SingleLinkedList.PopFront h A = .ok s () ∧ s.1.Valid ∧
      Rep s.1 B ms) := by
  constructor
  · intro v
    by_cases ha : h.avail = 0
    · exact ⟨(h, A), by rw [PushFront_bad_alloc h A v ha]; rfl, hv, hB⟩
    · obtain ⟨h2, A2, hp, hv2, _, _, _, hf⟩ := PushFront_rep hv hA (Nat.pos_of_ne_zero ha) v
      refine ⟨(h2, A2), by rw [hp]; rfl, hv2, ?_⟩
      exact hB.transfer (fun y hy => hf y.1 (Linked.addr_lt hv hB.2.1 y hy))
  · intro hne
    cases ns with
    | nil => exact absurd hA.2.2 hne
    | cons x rest =>
      obtain ⟨a, v⟩ := x
      obtain ⟨A2, hp, hv2, _⟩ := PopFront_rep hv hA
      refine ⟨(_, A2), hp, hv2, ?_⟩
      refine hB.transfer (fun y hy => ?_)
      have : y.1 ≠ a := fun hc => hd (a, v) (List.mem_cons_self _ _) y hy hc.symm
      exact Function.update_noteq this _ _

/-! ## Positions by index -/

theorem advance_before_begin_rep {α : Type} {h : Heap α} {self : SingleLinkedList}
    {ns : List (Nat × α)} (hr : Rep h self ns) (k : Nat) (hk : k ≤ ns.length) :
    BasicIterator.advance h self (k + 1) self.before_begin
      = .ok ⟨.heap (first (ns.drop k))⟩ := by
  rw [advance_before_begin]
  unfold SingleLinkedList.cbegin
  rw [hr.1]
  exact advance_of_linked h self ns k hr.2.1 hk

theorem advance_split {α : Type} {h : Heap α} {self : SingleLinkedList}
    (pre post : List (Nat × α)) (hr : Rep h self (pre ++ post)) :
    BasicIterator.advance h self (pre.length + 1) self.before_begin
      = .ok ⟨.heap (first post)⟩ := by
  rw [advance_before_begin_rep hr pre.length (by simp)]
  simp

/-- Insertion after the position reached from `before_begin()` by as many increments as
`pre` has nodes. -/
theorem InsertAfter_at {α : Type} {h : Heap α} (hv : h.Valid) {self : SingleLinkedList}
    (pre post : List (Nat × α)) (hr : Rep h self (pre ++ post)) (ha : 0 < h.avail) (v : α) :
    ∃ pos h2 self2, BasicIterator.advance h self pre.length self.before_begin = .ok pos ∧
      SingleLinkedList.InsertAfter h self pos v = .ok (h2, self2) ⟨.heap (some h.brk)⟩ ∧
      h2.Valid ∧ Rep h2 self2 (pre ++ (h.brk, v) :: post) := by
  rcases List.eq_nil_or_concat pre with rfl | ⟨pre2, ⟨a, x⟩, rfl⟩
  · obtain ⟨h2, self2, hp, hv2, hr2, _, _, _⟩ := PushFront_rep hv hr ha v
    refine ⟨self.before_begin, h2, self2, rfl, ?_, hv2, hr2⟩
    rw [InsertAfter_before_begin, hp]
    simp only [SingleLinkedList.cbegin, hr2.1, first_cons]
  · simp only [List.concat_eq_append, List.append_assoc, List.singleton_append] at hr ⊢
    obtain ⟨h2, self2, hp, hv2, hr2, _, _⟩ := InsertAfter_rep hv pre2 a x post hr ha v
    refine ⟨⟨.heap (some a)⟩, h2, self2, ?_, hp, hv2, hr2⟩
    have := advance_split pre2 ((a, x) :: post) hr
    simpa using this

/-- Erasure after the position reached from `before_begin()` by as many increments as
`pre` has nodes. -/
theorem EraseAfter_at {α : Type} {h : Heap α} (hv : h.Valid) {self : SingleLinkedList}
    (pre : List (Nat × α)) (t : Nat) (y : α) (post : List (Nat × α))
    (hr : Rep h self (pre ++ (t, y) :: post)) :
    ∃ pos h2 self2, BasicIterator.advance h self pre.length self.before_begin = .ok pos ∧
      SingleLinkedList.EraseAfter h self pos = .ok (h2, self2) ⟨.heap (first post)⟩ ∧
      h2.Valid ∧ Rep h2 self2 (pre ++ post) := by
  rcases List.eq_nil_or_concat pre with rfl | ⟨pre2, ⟨a, x⟩, rfl⟩
  · obtain ⟨self2, hp, hv2, hr2⟩ := PopFront_rep hv hr
    refine ⟨self.before_begin, _, self2, rfl, ?_, hv2, hr2⟩
    rw [EraseAfter_before_begin, hp]
    simp only [SingleLinkedList.cbegin, hr2.1]
  · simp only [List.concat_eq_append, List.append_assoc, List.singleton_append] at hr ⊢
    obtain ⟨h2, self2, hp, hv2, hr2, _, _⟩ := EraseAfter_rep hv pre2 a x t y post hr
    refine ⟨⟨.heap (some a)⟩, h2, self2, ?_, hp, hv2, hr2⟩
    have := advance_split pre2 ((a, x) :: (t, y) :: post) hr
    simpa using this

/-! ## Comparison -/

theorem std_equal_of_linked {α : Type} [BEq α] (h : Heap α) (o1 o2 : SingleLinkedList) :
    ∀ (ns ms : List (Nat × α)) (fuel : Nat), Linked h.cells ns → Linked h.cells ms →
      ns.length ≤ fuel →
      std_equal h o1 o2 fuel ⟨.heap (first ns)⟩ ⟨.heap none⟩ ⟨.heap (first ms)⟩ ⟨.heap none⟩
        = .ok (list_equal (ns.map Prod.snd) (ms.map Prod.snd))
  | [], [], fuel, _, _, _ => by
    unfold std_equal
    simp [BasicIterator.op_ne, BasicIterator.op_eq, list_equal]
  | [], (b, w) :: ms, fuel, _, _, _ => by
    unfold std_equal
    simp [BasicIterator.op_ne, BasicIterator.op_eq, list_equal]
  | (a, v) :: ns, [], fuel, _, _, _ => by
    unfold std_equal
    simp [BasicIterator.op_ne, BasicIterator.op_eq, list_equal]
  | (a, v) :: ns, (b, w) :: ms, 0, _, _, hle => by simp at hle
  | (a, v) :: ns, (b, w) :: ms, fuel + 1, hn, hm, hle => by
    have ih := std_equal_of_linked h o1 o2 ns ms fuel hn.2 hm.2 (by simpa using hle)
    unfold std_equal
    by_cases hvw : (v == w) = true
    · simp [BasicIterator.op_ne, BasicIterator.deref, BasicIterator.incr, load_next, hn.1,
        hm.1, list_equal, hvw, ih]
    · simp [BasicIterator.op_ne, BasicIterator.deref, BasicIterator.incr, load_next, hn.1,
        hm.1, list_equal, hvw]

theorem list_equal_iff {α : Type} [BEq α] :
    ∀ (xs ys : List α), list_equal xs ys = true ↔ equal_elements xs ys
  | [], [] => by simp [list_equal, equal_elements]
  | [], y :: ys => by simp [list_equal, equal_elements]
  | x :: xs, [] => by simp [list_equal, equal_elements]
  | x :: xs, y :: ys => by
    have ih := list_equal_iff xs ys
    unfold equal_elements at ih ⊢
    simp only [list_equal, List.length_cons, Nat.add_right_cancel_iff]
    constructor
    · intro hle
      by_cases hxy : (x == y) = true
      · simp only [hxy, Bool.not_true, Bool.false_eq_true, if_false] at hle
        obtain ⟨h1, h2⟩ := ih.1 hle
        refine ⟨h1, fun i hi a b ha hb => ?_⟩
        cases i with
        | zero =>
          simp only [List.getElem?_cons_zero, Option.some.injEq] at ha hb
          rw [← ha, ← hb]; exact hxy
        | succ j =>
          simp only [List.getElem?_cons_succ] at ha hb
          exact h2 j (by omega) a b ha hb
      · simp [hxy] at hle
    · rintro ⟨h1, h2⟩
      have hxy : (x == y) = true := h2 0 (by omega) x y (by simp) (by simp)
      simp only [hxy, Bool.not_true, Bool.false_eq_true, if_false]
      refine ih.2 ⟨h1, fun i hi a b ha hb => h2 (i + 1) (by omega) a b ?_ ?_⟩
      · simpa using ha
      · simpa using hb

/-! ## Operations that complete in either way -/

theorem InsertAfter_bad_alloc {α : Type} (h : Heap α) (self : SingleLinkedList)
    (pos : BasicIterator) (v : α) (nx : Option Nat)
    (hl : load_next h self pos.node_ = some nx) (ha : h.avail = 0) :
    SingleLinkedList.InsertAfter h self pos v = .bad_alloc (h, self) := by
  simp [SingleLinkedList.InsertAfter, hl, Heap.new_node, ha]

theorem from_initializer_list_total {α : Type} {h : Heap α} (hv : h.Valid) (values : List α) :
    ∃ s, (SingleLinkedList.from_initializer_list h values).state = some s ∧ s.1.Valid ∧
      SizeInv s.1 s.2 ∧ (∀ a, a < h.brk → s.1.cells a = h.cells a) := by
  by_cases ha : values.length ≤ h.avail
  · obtain ⟨h2, l2, he, hv2, hr2, _, _, hf⟩ := from_initializer_list_rep hv values ha
    exact ⟨(h2, l2), by rw [he]; rfl, hv2, inv_of_rep hv2 hr2, hf⟩
  · obtain ⟨h1, tmp1, hl, hv1, hr1, hb1, ha1, hf1⟩ :=
      CopyFromValues_loop_rep values.reverse h {} [] hv (rep_nil h)
    have hlen : values.reverse.length = values.length := by simp
    rw [hlen, if_neg ha] at hl
    obtain ⟨h2, hls, hv2, hb2, ha2, hdel, hfr⟩ := leave_scope_rep hv1 hr1 {} true
    refine ⟨(h2, {}), ?_, hv2, inv_of_rep hv2 (rep_nil h2), ?_⟩
    · simp only [SingleLinkedList.from_initializer_list, SingleLinkedList.CopyFromValues,
        Container.to_vector, hl]
      simp only [if_true] at hls
      simp [hls, Res.state]
    · intro a hlt
      rw [hfr a (fun hmem => ?_), hf1 a hlt]
      obtain ⟨y, hy, hxy⟩ := List.mem_map.1 hmem
      rcases pushed_mem _ _ _ y hy with h3 | h3
      · simp at h3
      · omega

theorem assign_total {α : Type} {h : Heap α} (hv : h.Valid) {self rhs : SingleLinkedList}
    {ns ms : List (Nat × α)} (hs : Rep h self ns) (hr : Rep h rhs ms) :
    ∃ s, (SingleLinkedList.assign h self (.other rhs)).state = some s ∧ s.1.Valid ∧
      SizeInv s.1 s.2 ∧ ((∀ x ∈ ns, ∀ y ∈ ms, x.1 ≠ y.1) → Rep s.1 rhs ms) := by
  by_cases ha : ms.length ≤ h.avail
  · obtain ⟨h2, self2, he, hv2, hr2, _, _, _, hf⟩ := assign_rep hv hs hr ha
    refine ⟨(h2, self2), by rw [he]; rfl, hv2, inv_of_rep hv2 hr2, fun hd => ?_⟩
    refine hr.transfer (fun y hy => hf y.1 (Linked.addr_lt hv hr.2.1 y hy) (fun hmem => ?_))
    obtain ⟨x, hx, hxy⟩ := List.mem_map.1 hmem
    exact hd x hx y hy hxy
  · obtain ⟨h2, he, hv2, hf⟩ := assign_rep_bad_alloc hv self hr (Nat.lt_of_not_le ha)
    refine ⟨(h2, self), by rw [he]; rfl, hv2, ?_, fun _ => ?_⟩
    · exact inv_of_rep hv2 (hs.transfer (fun x hx => hf x.1 (Linked.addr_lt hv hs.2.1 x hx)))
    · exact hr.transfer (fun y hy => hf y.1 (Linked.addr_lt hv hr.2.1 y hy))

theorem operator_eq_of_rep {α : Type} [BEq α] {h : Heap α} (hv : h.Valid)
    {a b : SingleLinkedList} {ns ms : List (Nat × α)} (ha : Rep h a ns) (hb : Rep h b ms) :
    operator_eq h a b = .ok (list_equal (ns.map Prod.snd) (ms.map Prod.snd)) := by
  unfold operator_eq SingleLinkedList.cbegin SingleLinkedList.cend
  rw [ha.1, hb.1]
  exact std_equal_of_linked h a b ns ms h.brk ha.2.1 hb.2.1 (Linked.length_le hv ha.2.1)

theorem list_equal_refl {α : Type} [BEq α] (hrefl : ∀ x : α, (x == x) = true) :
    ∀ xs : List α, list_equal xs xs = true
  | [] => rfl
  | x :: xs => by simp [list_equal, hrefl x, list_equal_refl hrefl xs]

theorem list_equal_symm {α : Type} [BEq α]
    (hsymm : ∀ x y : α, (x == y) = true → (y == x) = true) :
    ∀ xs ys : List α, list_equal xs ys = true → list_equal ys xs = true
  | [], [], _ => rfl
  | [], _ :: _, hl => by simp [list_equal] at hl
  | _ :: _, [], hl => by simp [list_equal] at hl
  | x :: xs, y :: ys, hl => by
    by_cases hxy : (x == y) = true
    · simp only [list_equal, hxy, Bool.not_true, Bool.false_eq_true, if_false] at hl
      simp [list_equal, hsymm x y hxy, list_equal_symm hsymm xs ys hl]
    · simp [list_equal, hxy] at hl

theorem list_equal_trans {α : Type} [BEq α]
    (htrans : ∀ x y z : α, (x == y) = true → (y == z) = true → (x == z) = true) :
    ∀ xs ys zs : List α, list_equal xs ys = true → list_equal ys zs = true →
      list_equal xs zs = true
  | [], [], zs, _, h2 => h2
  | [], _ :: _, _, h1, _ => by simp [list_equal] at h1
  | _ :: _, [], _, h1, _ => by simp [list_equal] at h1
  | _ :: _, _ :: _, [], _, h2 => by simp [list_equal] at h2
  | x :: xs, y :: ys, z :: zs, h1, h2 => by
    by_cases hxy : (x == y) = true
    · by_cases hyz : (y == z) = true
      · simp only [list_equal, hxy, hyz, Bool.not_true, Bool.false_eq_true, if_false] at h1 h2
        simp [list_equal, htrans x y z hxy hyz, list_equal_trans htrans xs ys zs h1 h2]
      · simp [list_equal, hyz] at h2
    · simp [list_equal, hxy] at h1

/-! ## Lexicographic comparison -/

theorem std_lexicographical_compare_of_linked {α : Type} (lt : α → α → Bool) (h : Heap α)
    (o1 o2 : SingleLinkedList) :
    ∀ (ns ms : List (Nat × α)) (fuel : Nat), Linked h.cells ns → Linked h.cells ms →
      ns.length ≤ fuel →
      std_lexicographical_compare lt h o1 o2 fuel ⟨.heap (first ns)⟩ ⟨.heap none⟩
          ⟨.heap (first ms)⟩ ⟨.heap none⟩
        = .ok (list_less lt (ns.map Prod.snd) (ms.map Prod.snd))
  | [], [], fuel, _, _, _ => by
    unfold std_lexicographical_compare
    simp [BasicIterator.op_ne, BasicIterator.op_eq, list_less]
  | [], (b, w) :: ms, fuel, _, _, _ => by
    unfold std_lexicographical_compare
    simp [BasicIterator.op_ne, BasicIterator.op_eq, list_less]
  | (a, v) :: ns, [], fuel, _, _, _ => by
    unfold std_lexicographical_compare
    simp [BasicIterator.op_ne, BasicIterator.op_eq, list_less]
  | (a, v) :: ns, (b, w) :: ms, 0, _, _, hle => by simp at hle
  | (a, v) :: ns, (b, w) :: ms, fuel + 1, hn, hm, hle => by
    have ih := std_lexicographical_compare_of_linked lt h o1 o2 ns ms fuel hn.2 hm.2
      (by simpa using hle)
    unfold std_lexicographical_compare
    by_cases h1 : lt v w = true
    · simp [BasicIterator.op_ne, BasicIterator.deref, hn.1, hm.1, list_less, h1]
    · by_cases h2 : lt w v = true
      · simp [BasicIterator.op_ne, BasicIterator.deref, hn.1, hm.1, list_less, h1, h2]
      · simp [BasicIterator.op_ne, BasicIterator.deref, BasicIterator.incr, load_next, hn.1,
          hm.1, list_less, h1, h2, ih]

theorem operator_lt_of_rep {α : Type} (lt : α → α → Bool) {h : Heap α} (hv : h.Valid)
    {a b : SingleLinkedList} {ns ms : List (Nat × α)} (ha : Rep h a ns) (hb : Rep h b ms) :
    operator_lt lt h a b = .ok (list_less lt (ns.map Prod.snd) (ms.map Prod.snd)) := by
  unfold operator_lt SingleLinkedList.cbegin SingleLinkedList.cend
  rw [ha.1, hb.1]
  exact std_lexicographical_compare_of_linked lt h a b ns ms h.brk ha.2.1 hb.2.1
    (Linked.length_le hv ha.2.1)

theorem less_elements_cons_same {α : Type} (lt : α → α → Bool) (x : α) (xs ys : List α) :
    less_elements lt (x :: xs) (x :: ys) ↔ less_elements lt xs ys := by
  unfold less_elements
  constructor
  · rintro (⟨zs, hz, he⟩ | ⟨i, a, b, ha, hb, ht, hne, hlt⟩)
    · exact Or.inl ⟨zs, hz, by simpa using he⟩
    · cases i with
      | zero =>
        simp only [List.getElem?_cons_zero, Option.some.injEq] at ha hb
        exact absurd (ha.symm.trans hb) hne
      | succ j =>
        simp only [List.getElem?_cons_succ, List.take_succ_cons, List.cons.injEq,
          true_and] at ha hb ht
        exact Or.inr ⟨j, a, b, ha, hb, ht, hne, hlt⟩
  · rintro (⟨zs, hz, he⟩ | ⟨i, a, b, ha, hb, ht, hne, hlt⟩)
    · exact Or.inl ⟨zs, hz, by simp [he]⟩
    · exact Or.inr ⟨i + 1, a, b, by simpa using ha, by simpa using hb, by simp [ht], hne, hlt⟩

theorem less_elements_cons_ne {α : Type} (lt : α → α → Bool) (x y : α) (xs ys : List α)
    (hne : x ≠ y) : less_elements lt (x :: xs) (y :: ys) ↔ lt x y = true := by
  unfold less_elements
  constructor
  · rintro (⟨zs, _, he⟩ | ⟨i, a, b, ha, hb, ht, _, hlt⟩)
    · simp only [List.cons_append, List.cons.injEq] at he
      exact absurd he.1.symm hne
    · cases i with
      | zero =>
        simp only [List.getElem?_cons_zero, Option.some.injEq] at ha hb
        rw [ha, hb]; exact hlt
      | succ j =>
        simp only [List.take_succ_cons, List.cons.injEq] at ht
        exact absurd ht.1 hne
  · intro hlt
    exact Or.inr ⟨0, x, y, by simp, by simp, by simp, hne, hlt⟩

theorem list_less_iff {α : Type} (lt : α → α → Bool) (hirr : ∀ x, lt x x = false)
    (htri : ∀ x y, lt x y = true ∨ x = y ∨ lt y x = true) :
    ∀ (xs ys : List α), list_less lt xs ys = true ↔ less_elements lt xs ys
  | [], [] => by simp [list_less, less_elements]
  | [], y :: ys => by
    simp only [list_less, true_iff]
    exact Or.inl ⟨y :: ys, by simp, by simp⟩
  | x :: xs, [] => by simp [list_less, less_elements]
  | x :: xs, y :: ys => by
    have ih := list_less_iff lt hirr htri xs ys
    by_cases hxy : x = y
    · subst hxy
      rw [less_elements_cons_same, ← ih]
      simp [list_less, hirr x]
    · rw [less_elements_cons_ne lt x y xs ys hxy]
      by_cases h1 : lt x y = true
      · simp [list_less, h1]
      · rcases htri x y with h2 | h2 | h2
        · exact absurd h2 h1
        · exact absurd h2 hxy
        · simp [list_less, h1, h2]

theorem list_trichotomy {α : Type} [BEq α] (lt : α → α → Bool) (hirr : ∀ x, lt x x = false)
    (htrans : ∀ x y z, lt x y = true → lt y z = true → lt x z = true)
    (htri : ∀ x y, lt x y = true ∨ x = y ∨ lt y x = true)
    (heq : ∀ x y : α, (x == y) = true ↔ x = y) :
    ∀ (xs ys : List α),
      (list_less lt xs ys = true ∧ list_equal xs ys = false ∧ list_equal ys xs = false ∧
        list_less lt ys xs = false) ∨
      (list_less lt xs ys = false ∧ list_equal xs ys = true ∧ list_equal ys xs = true ∧
        list_less lt ys xs = false) ∨
      (list_less lt xs ys = false ∧ list_equal xs ys = false ∧ list_equal ys xs = false ∧
        list_less lt ys xs = true)
  | [], [] => by simp [list_less, list_equal]
  | [], y :: ys => by simp [list_less, list_equal]
  | x :: xs, [] => by simp [list_less, list_equal]
  | x :: xs, y :: ys => by
    have ih := list_trichotomy lt hirr htrans htri heq xs ys
    have hasym : ∀ u v, lt u v = true → lt v u = false := by
      intro u v huv
      cases hvu : lt v u with
      | false => rfl
      | true =>
        have := htrans u v u huv hvu
        rw [hirr u] at this
        exact absurd this (by simp)
    have hne : ∀ u v, lt u v = true → u ≠ v := by
      intro u v huv hc
      rw [hc, hirr v] at huv
      exact absurd huv (by simp)
    have hbeq : ∀ u v : α, u ≠ v → (u == v) = false := by
      intro u v huv
      cases hb : (u == v) with
      | false => rfl
      | true => exact absurd ((heq u v).1 hb) huv
    rcases htri x y with h1 | h1 | h1
    · have h2 := hasym x y h1
      have h3 := hne x y h1
      simp [list_less, list_equal, h1, h2, hbeq x y h3, hbeq y x (Ne.symm h3)]
    · subst h1
      have h2 : (x == x) = true := (heq x x).2 rfl
      simpa [list_less, list_equal, hirr x, h2] using ih
    · have h2 := hasym y x h1
      have h3 := hne y x h1
      simp [list_less, list_equal, h1, h2, hbeq x y (Ne.symm h3), hbeq y x h3]

/-! ## Reachable lists satisfy the size invariant -/

theorem PushFront_total {α : Type} {h : Heap α} (hv : h.Valid) {self : SingleLinkedList}
    {ns : List (Nat × α)} (hr : Rep h self ns) (v : α) :
    ∃ s, (SingleLinkedList.PushFront h self v).state = some s ∧ s.1.Valid ∧
      SizeInv s.1 s.2 := by
  by_cases ha : h.avail = 0
  · exact ⟨(h, self), by rw [PushFront_bad_alloc h self v ha]; rfl, hv, inv_of_rep hv hr⟩
  · obtain ⟨h2, l2, hp, hv2, hr2, _⟩ := PushFront_rep hv hr (Nat.pos_of_ne_zero ha) v
    exact ⟨(h2, l2), by rw [hp]; rfl, hv2, inv_of_rep hv2 hr2⟩

theorem PopFront_total {α : Type} {h : Heap α} (hv : h.Valid) {self : SingleLinkedList}
    {ns : List (Nat × α)} (hr : Rep h self ns) (hne : self.IsEmpty = false) :
    ∃ s, SingleLinkedList.PopFront h self = .ok s () ∧ s.1.Valid ∧ SizeInv s.1 s.2 := by
  cases ns with
  | nil =>
    have := hr.2.2
    simp [SingleLinkedList.IsEmpty] at hne
    exact absurd this hne
  | cons x rest =>
    obtain ⟨a, w⟩ := x
    obtain ⟨l2, hp, hv2, hr2⟩ := PopFront_rep hv hr
    exact ⟨(_, l2), hp, hv2, inv_of_rep hv2 hr2⟩

theorem InsertAfter_total {α : Type} {h : Heap α} (hv : h.Valid) {self : SingleLinkedList}
    {ns : List (Nat × α)} (hr : Rep h self ns) (i : Nat) (hi : i ≤ ns.length) (v : α) :
    ∃ pos, BasicIterator.advance h self i self.before_begin = .ok pos ∧
      ∃ s, (SingleLinkedList.InsertAfter h self pos v).state = some s ∧ s.1.Valid ∧
        SizeInv s.1 s.2 := by
  have hsplit : ns.take i ++ ns.drop i = ns := List.take_append_drop i ns
  have hpl : (ns.take i).length = i := by
    rw [List.length_take]; exact Nat.min_eq_left hi
  have hr0 : Rep h self (ns.take i ++ ns.drop i) := by rw [hsplit]; exact hr
  by_cases ha : h.avail = 0
  · cases i with
    | zero =>
      refine ⟨self.before_begin, rfl, (h, self), ?_, hv, inv_of_rep hv hr⟩
      rw [InsertAfter_bad_alloc h self self.before_begin v self.head_.next_node rfl ha]
      rfl
    | succ k =>
      have hadv := advance_before_begin_rep hr k (by omega)
      cases hd : ns.drop k with
      | nil =>
        have := congrArg List.length hd
        simp only [List.length_drop, List.length_nil] at this
        omega
      | cons ax post =>
        obtain ⟨a, x⟩ := ax
        rw [hd] at hadv
        have hsp : ns.take k ++ (a, x) :: post = ns := by
          rw [← hd]; exact List.take_append_drop k ns
        have hca := Linked.mid (ns.take k) a x post (by rw [hsp]; exact hr.2.1)
        refine ⟨_, hadv, (h, self), ?_, hv, inv_of_rep hv hr⟩
        rw [InsertAfter_bad_alloc h self _ v (first post) (by simp [load_next, hca]) ha]
        rfl
  · obtain ⟨pos, h2, self2, hpos, hins, hv2, hr2⟩ :=
      InsertAfter_at hv (ns.take i) (ns.drop i) hr0 (Nat.pos_of_ne_zero ha) v
    rw [hpl] at hpos
    exact ⟨pos, hpos, (h2, self2), by rw [hins]; rfl, hv2, inv_of_rep hv2 hr2⟩

theorem EraseAfter_total {α : Type} {h : Heap α} (hv : h.Valid) {self : SingleLinkedList}
    {ns : List (Nat × α)} (hr : Rep h self ns) (i : Nat) (hi : i < ns.length) :
    ∃ pos, BasicIterator.advance h self i self.before_begin = .ok pos ∧
      ∃ s it, SingleLinkedList.EraseAfter h self pos = .ok s it ∧ s.1.Valid ∧
        SizeInv s.1 s.2 := by
  have hsplit : ns.take i ++ ns.drop i = ns := List.take_append_drop i ns
  have hpl : (ns.take i).length = i := by
    rw [List.length_take]; exact Nat.min_eq_left (by omega)
  cases hd : ns.drop i with
  | nil =>
    have := congrArg List.length hd
    simp only [List.length_drop, List.length_nil] at this
    omega
  | cons ty post =>
    obtain ⟨t, y⟩ := ty
    have hr0 : Rep h self (ns.take i ++ (t, y) :: post) := by
      rw [← hd, hsplit]; exact hr
    obtain ⟨pos, h2, self2, hpos, hers, hv2, hr2⟩ :=
      EraseAfter_at hv (ns.take i) t y post hr0
    rw [hpl] at hpos
    exact ⟨pos, hpos, (h2, self2), _, hers, hv2, inv_of_rep hv2 hr2⟩

theorem copy_ctor_total {α : Type} {h : Heap α} (hv : h.Valid) {other : SingleLinkedList}
    {ms : List (Nat × α)} (hr : Rep h other ms) :
    ∃ s, (SingleLinkedList.copy_ctor h other).state = some s ∧ s.1.Valid ∧
      SizeInv s.1 s.2 := by
  by_cases ha : ms.length ≤ h.avail
  · obtain ⟨h2, l2, he, hv2, hr2, _⟩ := copy_ctor_rep hv hr ha
    exact ⟨(h2, l2), by rw [he]; rfl, hv2, inv_of_rep hv2 hr2⟩
  · obtain ⟨h1, he, hv1, _⟩ := assign_rep_bad_alloc hv {} hr (Nat.lt_of_not_le ha)
    obtain ⟨h2, hls, hv2, _⟩ := leave_scope_rep hv1 (rep_nil h1) {} true
    refine ⟨(h2, {}), ?_, hv2, inv_of_rep hv2 (rep_nil h2)⟩
    simp only [if_true] at hls
    simp [SingleLinkedList.copy_ctor, he, hls, Res.state]

theorem reachable_inv {α : Type} {h : Heap α} {l : SingleLinkedList} (hr : Reachable h l) :
    h.Valid ∧ SizeInv h l := by
  induction hr with
  | default_ctor h hv => exact ⟨hv, inv_of_rep hv (rep_nil h)⟩
  | initializer_list h values s hv hs =>
    obtain ⟨s2, hs2, hv2, hi2, _⟩ := from_initializer_list_total hv values
    rw [hs] at hs2
    cases hs2
    exact ⟨hv2, hi2⟩
  | copy_ctor h other s _ hs ih =>
    obtain ⟨ms, hro⟩ := (sizeInv_iff_rep ih.1 other).1 ih.2
    obtain ⟨s2, hs2, hv2, hi2⟩ := copy_ctor_total ih.1 hro
    rw [hs] at hs2
    cases hs2
    exact ⟨hv2, hi2⟩
  | assign h l rhs s _ _ hs ihl ihr =>
    obtain ⟨ns, hrl⟩ := (sizeInv_iff_rep ihl.1 l).1 ihl.2
    obtain ⟨ms, hrr⟩ := (sizeInv_iff_rep ihl.1 rhs).1 ihr.2
    obtain ⟨s2, hs2, hv2, hi2, _⟩ := assign_total ihl.1 hrl hrr
    rw [hs] at hs2
    cases hs2
    exact ⟨hv2, hi2⟩
  | self_assign h l s _ hs ih =>
    cases hs
    exact ih
  | swap_this h l other _ _ _ iho => exact iho
  | swap_other h l other _ _ ihl _ => exact ihl
  | PushFront h l v s _ hs ih =>
    obtain ⟨ns, hrl⟩ := (sizeInv_iff_rep ih.1 l).1 ih.2
    obtain ⟨s2, hs2, hv2, hi2⟩ := PushFront_total ih.1 hrl v
    rw [hs] at hs2
    cases hs2
    exact ⟨hv2, hi2⟩
  | PopFront h l s _ hne hs ih =>
    obtain ⟨ns, hrl⟩ := (sizeInv_iff_rep ih.1 l).1 ih.2
    obtain ⟨s2, hs2, hv2, hi2⟩ := PopFront_total ih.1 hrl hne
    rw [hs2] at hs
    cases hs
    exact ⟨hv2, hi2⟩
  | InsertAfter h l i pos v s _ hi hp hs ih =>
    obtain ⟨ns, hrl⟩ := (sizeInv_iff_rep ih.1 l).1 ih.2
    have hi2 : i ≤ ns.length := by rw [← hrl.2.2]; exact hi
    obtain ⟨pos2, hp2, s2, hs2, hv2, hinv2⟩ := InsertAfter_total ih.1 hrl i hi2 v
    rw [hp] at hp2
    cases hp2
    rw [hs] at hs2
    cases hs2
    exact ⟨hv2, hinv2⟩
  | EraseAfter h l i pos s _ hi hp hs ih =>
    obtain ⟨ns, hrl⟩ := (sizeInv_iff_rep ih.1 l).1 ih.2
    have hi2 : i < ns.length := by rw [← hrl.2.2]; exact hi
    obtain ⟨pos2, hp2, s2, it, hs2, hv2, hinv2⟩ := EraseAfter_total ih.1 hrl i hi2
    rw [hp] at hp2
    cases hp2
    rw [hs2] at hs
    cases hs
    exact ⟨hv2, hinv2⟩
  | Clear h l s _ hs ih =>
    obtain ⟨ns, hrl⟩ := (sizeInv_iff_rep ih.1 l).1 ih.2
    obtain ⟨h2, hc, hv2, _⟩ := Clear_rep ih.1 hrl
    rw [hc] at hs
    cases hs
    exact ⟨hv2, inv_of_rep hv2 (rep_nil h2)⟩
  | elsewhere h h2 l _ hv hf ih =>
    obtain ⟨ns, hrl⟩ := (sizeInv_iff_rep ih.1 l).1 ih.2
    refine ⟨hv, inv_of_rep hv (hrl.transfer (fun x hx => hf x.1 ?_))⟩
    rw [nodes_of_rep ih.1 hrl]
    exact List.mem_map.2 ⟨x, hx, rfl⟩

theorem sample_built_reachable : Reachable sample_built.1 sample_built.2 :=
  Reachable.initializer_list (Heap.init Nat 8) [1, 2, 3] sample_built
    (valid_init Nat (by decide)) rfl

theorem pushed_keeps {α : Type} :
    ∀ (xs : List α) (b : Nat) (ns : List (Nat × α)) (y : Nat × α),
      y ∈ ns → y ∈ pushed b xs ns
  | [], _, _, _, hy => hy
  | x :: rest, b, ns, y, hy =>
    pushed_keeps rest (b + 1) ((b, x) :: ns) y (List.mem_cons_of_mem _ hy)

/-! ## The loop of `Clear` by number of iterations -/

theorem Clear_loop_fuel {α : Type} :
    ∀ (ns : List (Nat × α)) (fuel : Nat) (h : Heap α) (self : SingleLinkedList),
      h.Valid → Rep h self ns →
      SingleLinkedList.Clear_loop fuel h self
        = if ns.length ≤ fuel then SingleLinkedList.Clear_loop ns.length h self
          else .fault .out_of_fuel
  | [], fuel, h, self, _, hr => by
    have hsz : self.size_ = 0 := hr.2.2
    simp only [List.length_nil, Nat.zero_le, if_true]
    unfold SingleLinkedList.Clear_loop
    simp [hsz]
  | (a, v) :: rest, 0, h, self, _, hr => by
    have hsz : self.size_ ≠ 0 := by rw [hr.2.2]; simp
    unfold SingleLinkedList.Clear_loop
    simp [hsz]
  | (a, v) :: rest, fuel + 1, h, self, hv, hr => by
    have hsz : self.size_ ≠ 0 := by rw [hr.2.2]; simp
    obtain ⟨self2, hpop, hv2, hr2⟩ := PopFront_rep hv hr
    have ih := Clear_loop_fuel rest fuel _ self2 hv2 hr2
    simp only [SingleLinkedList.PopFront, hr.1, first_cons, hr.2.1.1, Res.ok.injEq,
      Prod.mk.injEq, true_and, and_true] at hpop
    have hstep : ∀ k, SingleLinkedList.Clear_loop (k + 1) h self
        = SingleLinkedList.Clear_loop k (h.delete_node a) self2 := by
      intro k
      conv_lhs => unfold SingleLinkedList.Clear_loop
      simp only [hsz, if_false, hr.1, first_cons, hr.2.1.1]
      rw [hpop]
    rw [hstep fuel, ih, List.length_cons, hstep rest.length]
    simp only [Nat.add_le_add_iff_right]

theorem pushed_covers {α : Type} :
    ∀ (xs : List α) (b : Nat) (ns : List (Nat × α)) (a : Nat), b ≤ a → a < b + xs.length →
      ∃ v, (a, v) ∈ pushed b xs ns
  | [], b, ns, a, h1, h2 => by simp at h2; omega
  | x :: rest, b, ns, a, h1, h2 => by
    simp only [pushed]
    by_cases hab : a = b
    · subst hab
      exact ⟨x, pushed_keeps rest (a + 1) ((a, x) :: ns) (a, x) (List.mem_cons_self _ _)⟩
    · simp only [List.length_cons] at h2
      exact pushed_covers rest (b + 1) ((b, x) :: ns) a (by omega) (by omega)

/-- A copy assignment that runs out of memory: the target is handed back as it was, the
free store below the old `brk` is as it was, and the nodes created for the partial
copy are destroyed again. -/
theorem assign_bad_alloc_clean {α : Type} {h : Heap α} (hv : h.Valid)
    (self : SingleLinkedList) {rhs : SingleLinkedList} {ms : List (Nat × α)}
    (hr : Rep h rhs ms) (ha : h.avail < ms.length) :
    ∃ h2, SingleLinkedList.assign h self (.other rhs) = .bad_alloc (h2, self) ∧ h2.Valid ∧
      (∀ a, a < h.brk → h2.cells a = h.cells a) ∧ (∀ a, h.brk ≤ a → h2.cells a = none) := by
  have htr := traverse_of_rep hv hr
  obtain ⟨h1, tmp1, hl, hv1, hr1, hb1, ha1, hf1⟩ :=
    CopyFromValues_loop_rep (ms.map Prod.snd).reverse h {} [] hv (rep_nil h)
  have hlen : (ms.map Prod.snd).reverse.length = ms.length := by simp
  rw [hlen, if_neg (Nat.not_le_of_gt ha)] at hl
  rw [hlen, Nat.min_eq_right (Nat.le_of_lt ha)] at hb1
  obtain ⟨h2, hls, hv2, hb2, ha2, hdel, hfr⟩ := leave_scope_rep hv1 hr1 self true
  refine ⟨h2, ?_, hv2, ?_, ?_⟩
  · simp only [SingleLinkedList.assign, SingleLinkedList.CopyFromValues, Container.to_vector,
      htr, hl]
    simpa using hls
  · intro a hlt
    rw [hfr a (fun hmem => ?_), hf1 a hlt]
    obtain ⟨y, hy, hxy⟩ := List.mem_map.1 hmem
    rcases pushed_mem _ _ _ y hy with h3 | h3
    · simp at h3
    · omega
  · intro a hle
    by_cases hmem : a ∈ (pushed h.brk ((ms.map Prod.snd).reverse.take h.avail) []).map Prod.fst
    · obtain ⟨y, hy, hxy⟩ := List.mem_map.1 hmem
      rw [← hxy]
      exact hdel y hy
    · rw [hfr a hmem]
      apply hv1.1
      rw [hb1]
      by_contra hcon
      have hlt : a < h.brk + ((ms.map Prod.snd).reverse.take h.avail).length := by
        rw [List.length_take, hlen, Nat.min_eq_left (Nat.le_of_lt ha)]
        omega
      obtain ⟨v, hmv⟩ := pushed_covers _ h.brk [] a hle hlt
      exact hmem (List.mem_map.2 ⟨(a, v), hmv, rfl⟩)

theorem sample_low_valid : sample_low.Valid := by
  refine ⟨fun a ha => ?_, by decide⟩
  match a, ha with
  | a + 4, _ => rfl

/-! ## The claims -/

/-- C2: starting from an empty list, the calls `PushFront(v1)`, ..., `PushFront(vn)` all
return (the free store has room for `n` nodes) and yield a list whose `GetSize()` is
`n` and whose front-to-back traversal is `vn, ..., v1`. -/
theorem pushFront_calls_reverse {α : Type} (h : Heap α) (vs : List α) (hv : h.Valid)
    (ha : vs.length ≤ h.avail) :
    ∃ h2 l2, PushFront_calls vs h SingleLinkedList.ctor = .ok (h2, l2) () ∧
      l2.GetSize = vs.length ∧ l2.traverse h2 = .ok vs.reverse := by
  obtain ⟨h2, l2, hl, hv2, hr2, _, _, _⟩ :=
    CopyFromValues_loop_rep vs h SingleLinkedList.ctor [] hv (rep_nil h)
  rw [if_pos ha, List.take_of_length_le ha] at *
  refine ⟨h2, l2, ?_, ?_, ?_⟩
  · rw [PushFront_calls_eq_loop]; exact hl
  · show l2.size_ = _
    rw [hr2.2.2, pushed_length]; simp
  · rw [traverse_of_rep hv2 hr2, pushed_map_snd]; simp

theorem pushFront_calls_reverse_witness :
    (Heap.init Nat 5).Valid ∧ [3, 2, 1].length ≤ (Heap.init Nat 5).avail ∧
    ∃ h2 l2, PushFront_calls [3, 2, 1] (Heap.init Nat 5) SingleLinkedList.ctor
        = .ok (h2, l2) () ∧
      l2.GetSize = [3, 2, 1].length ∧ l2.traverse h2 = .ok [3, 2, 1].reverse :=
  ⟨valid_init Nat (by decide), by decide,
    pushFront_calls_reverse (Heap.init Nat 5) [3, 2, 1] (valid_init Nat (by decide))
      (by decide)⟩

/-- C3: the list constructed from the initializer list `S` (the free store has room for
its nodes), traversed from `begin()` to `end()`, yields exactly `S` in the same order,
and its `GetSize()` is the length of `S`; the empty sequence gives an empty list. -/
theorem initializer_list_round_trip {α : Type} (h : Heap α) (S : List α) (hv : h.Valid)
    (ha : S.length ≤ h.avail) :
    ∃ h2 l2, SingleLinkedList.from_initializer_list h S = .ok (h2, l2) () ∧
      l2.traverse h2 = .ok S ∧ l2.GetSize = S.length ∧
      (S = [] → l2.IsEmpty = true ∧ l2.cbegin = l2.cend) := by
  obtain ⟨h2, l2, hl, hv2, hr2, _, _, _⟩ := from_initializer_list_rep hv S ha
  refine ⟨h2, l2, hl, ?_, ?_, ?_⟩
  · rw [traverse_of_rep hv2 hr2, pushed_map_snd]; simp
  · show l2.size_ = _
    rw [hr2.2.2, pushed_length]; simp
  · rintro rfl
    have h1 := hr2.1
    have h3 := hr2.2.2
    simp only [List.reverse_nil, pushed, first_nil, List.length_nil] at h1 h3
    simp [SingleLinkedList.IsEmpty, SingleLinkedList.cbegin, SingleLinkedList.cend, h1, h3]

theorem initializer_list_round_trip_witness :
    sample_heap.Valid ∧ [4, 5, 6].length ≤ sample_heap.avail ∧
    ∃ h2 l2, SingleLinkedList.from_initializer_list sample_heap [4, 5, 6] = .ok (h2, l2) () ∧
      l2.traverse h2 = .ok [4, 5, 6] ∧ l2.GetSize = [4, 5, 6].length ∧
      ([4, 5, 6] = [] → l2.IsEmpty = true ∧ l2.cbegin = l2.cend) :=
  ⟨sample_valid, by decide,
    initializer_list_round_trip sample_heap [4, 5, 6] sample_valid (by decide)⟩

/-- C4: for lists `A` and `B` owning separate chains (`B` is the target of the assignment;
copy construction needs no prior `B`), after copy construction `B(A)` or copy
assignment `B = A` the traversal of `B` is that of `A`, `B.GetSize() == A.GetSize()`,
and the traversal and size of `A` are as before. -/
theorem copy_preserves_elements {α : Type} (h : Heap α) (A B : SingleLinkedList)
    (xs : List α) (hv : h.Valid) (hA : SizeInv h A) (hB : SizeInv h B)
    (hd : share_no_node h A B) (hx : A.traverse h = .ok xs)
    (ha : A.GetSize ≤ h.avail) :
    (∃ h2 B2, SingleLinkedList.copy_ctor h A = .ok (h2, B2) () ∧ B2.traverse h2 = .ok xs ∧
      B2.GetSize = A.GetSize ∧ A.traverse h2 = .ok xs ∧ SizeInv h2 A) ∧
    (∃ h2 B2, SingleLinkedList.assign h B (.other A) = .ok (h2, B2) () ∧
      B2.traverse h2 = .ok xs ∧ B2.GetSize = A.GetSize ∧ A.traverse h2 = .ok xs ∧
      SizeInv h2 A) := by
  obtain ⟨ns, hrA, hmap⟩ := rep_of_inv hv hA hx
  obtain ⟨ms, hrB⟩ := (sizeInv_iff_rep hv B).1 hB
  have hdis := disjoint_of_nodes hv hrA hrB hd
  have hlen : ns.length ≤ h.avail := by rw [← hrA.2.2]; exact ha
  have key : ∀ r, (r = SingleLinkedList.assign h B (.other A) ∨
      r = SingleLinkedList.copy_ctor h A) →
      ∃ h2 B2, r = .ok (h2, B2) () ∧ B2.traverse h2 = .ok xs ∧ B2.GetSize = A.GetSize ∧
        A.traverse h2 = .ok xs ∧ SizeInv h2 A := by
    intro r hr
    obtain ⟨h2, B2, cs, he, hv2, hr2, hcs, hA2, _⟩ := copy_result hv hrA hrB hdis hlen r hr
    refine ⟨h2, B2, he, ?_, ?_, ?_, inv_of_rep hv2 hA2⟩
    · rw [traverse_of_rep hv2 hr2, hcs, hmap]
    · show B2.size_ = A.size_
      rw [hr2.2.2, hrA.2.2, ← List.length_map cs Prod.snd, hcs, List.length_map]
    · rw [traverse_of_rep hv2 hA2, hmap]
  exact ⟨key _ (Or.inr rfl), key _ (Or.inl rfl)⟩

theorem copy_preserves_elements_witness :
    sample_heap.Valid ∧ SizeInv sample_heap sample_A ∧ SizeInv sample_heap sample_B ∧
    share_no_node sample_heap sample_A sample_B ∧
    sample_A.traverse sample_heap = .ok [1, 2, 3] ∧ sample_A.GetSize ≤ sample_heap.avail ∧
    (∃ h2 B2, SingleLinkedList.copy_ctor sample_heap sample_A = .ok (h2, B2) () ∧
      B2.traverse h2 = .ok [1, 2, 3] ∧ B2.GetSize = sample_A.GetSize ∧
      sample_A.traverse h2 = .ok [1, 2, 3] ∧ SizeInv h2 sample_A) ∧
    (∃ h2 B2, SingleLinkedList.assign sample_heap sample_B (.other sample_A) = .ok (h2, B2) () ∧
      B2.traverse h2 = .ok [1, 2, 3] ∧ B2.GetSize = sample_A.GetSize ∧
      sample_A.traverse h2 = .ok [1, 2, 3] ∧ SizeInv h2 sample_A) :=
  ⟨sample_valid, by decide, by decide, by decide, rfl, by decide,
    copy_preserves_elements sample_heap sample_A sample_B [1, 2, 3] sample_valid
      (by decide) (by decide) (by decide) rfl (by decide)⟩

/-- C5: copy independence.  After `B = A` or copy construction of `B` from `A`, the chain
of `B` shares no node with the chain of `A`; a later `PushFront`, or `PopFront` on a
non-empty list, applied to `A` leaves the elements of `B` and their agreement with the
size of `B` as they are, and the same with the roles of `A` and `B` exchanged. -/
theorem copy_independence {α : Type} (h : Heap α) (A B : SingleLinkedList)
    (xs : List α) (hv : h.Valid) (hA : SizeInv h A) (hB : SizeInv h B)
    (hd : share_no_node h A B) (hx : A.traverse h = .ok xs)
    (ha : A.GetSize ≤ h.avail) :
    ∀ r, (r = SingleLinkedList.assign h B (.other A) ∨ r = SingleLinkedList.copy_ctor h A) →
      ∃ h2 B2, r = .ok (h2, B2) () ∧ share_no_node h2 A B2 ∧
        (∀ v, ∃ s, (SingleLinkedList.PushFront h2 A v).state = some s ∧
          B2.traverse s.1 = .ok xs ∧ SizeInv s.1 B2) ∧
        (¬ A.IsEmpty → ∃ s, SingleLinkedList.PopFront h2 A = .ok s () ∧
          B2.traverse s.1 = .ok xs ∧ SizeInv s.1 B2) ∧
        (∀ v, ∃ s, (SingleLinkedList.PushFront h2 B2 v).state = some s ∧
          A.traverse s.1 = .ok xs ∧ SizeInv s.1 A) ∧
        (¬ B2.IsEmpty → ∃ s, SingleLinkedList.PopFront h2 B2 = .ok s () ∧
          A.traverse s.1 = .ok xs ∧ SizeInv s.1 A) := by
  obtain ⟨ns, hrA, hmap⟩ := rep_of_inv hv hA hx
  obtain ⟨ms, hrB⟩ := (sizeInv_iff_rep hv B).1 hB
  have hdis := disjoint_of_nodes hv hrA hrB hd
  have hlen : ns.length ≤ h.avail := by rw [← hrA.2.2]; exact ha
  intro r hr
  obtain ⟨h2, B2, cs, he, hv2, hr2, hcs, hA2, hfr⟩ := copy_result hv hrA hrB hdis hlen r hr
  have hfr2 : ∀ x ∈ cs, ∀ y ∈ ns, x.1 ≠ y.1 := fun x hx y hy hc => hfr y hy x hx hc.symm
  obtain ⟨hpushA, hpopA⟩ := other_list_frame hv2 hA2 hr2 hfr
  obtain ⟨hpushB, hpopB⟩ := other_list_frame hv2 hr2 hA2 hfr2
  have hempty : ∀ l : SingleLinkedList, ¬ l.IsEmpty → l.size_ ≠ 0 := by
    intro l hl hz
    exact hl (by simp [SingleLinkedList.IsEmpty, hz])
  refine ⟨h2, B2, he, nodes_disjoint hv2 hA2 hr2 hfr, ?_, ?_, ?_, ?_⟩
  · intro v
    obtain ⟨s, hs, hvs, hrs⟩ := hpushA v
    exact ⟨s, hs, by rw [traverse_of_rep hvs hrs, hcs, hmap], inv_of_rep hvs hrs⟩
  · intro hne
    obtain ⟨s, hs, hvs, hrs⟩ := hpopA (hempty A hne)
    exact ⟨s, hs, by rw [traverse_of_rep hvs hrs, hcs, hmap], inv_of_rep hvs hrs⟩
  · intro v
    obtain ⟨s, hs, hvs, hrs⟩ := hpushB v
    exact ⟨s, hs, by rw [traverse_of_rep hvs hrs, hmap], inv_of_rep hvs hrs⟩
  · intro hne
    obtain ⟨s, hs, hvs, hrs⟩ := hpopB (hempty B2 hne)
    exact ⟨s, hs, by rw [traverse_of_rep hvs hrs, hmap], inv_of_rep hvs hrs⟩

theorem copy_independence_witness :
    sample_heap.Valid ∧ SizeInv sample_heap sample_A ∧ SizeInv sample_heap sample_B ∧
    share_no_node sample_heap sample_A sample_B ∧
    sample_A.traverse sample_heap = .ok [1, 2, 3] ∧ sample_A.GetSize ≤ sample_heap.avail ∧
    ∀ r, (r = SingleLinkedList.assign sample_heap sample_B (.other sample_A) ∨
        r = SingleLinkedList.copy_ctor sample_heap sample_A) →
      ∃ h2 B2, r = .ok (h2, B2) () ∧ share_no_node h2 sample_A B2 ∧
        (∀ v, ∃ s, (SingleLinkedList.PushFront h2 sample_A v).state = some s ∧
          B2.traverse s.1 = .ok [1, 2, 3] ∧ SizeInv s.1 B2) ∧
        (¬ sample_A.IsEmpty → ∃ s, SingleLinkedList.PopFront h2 sample_A = .ok s () ∧
          B2.traverse s.1 = .ok [1, 2, 3] ∧ SizeInv s.1 B2) ∧
        (∀ v, ∃ s, (SingleLinkedList.PushFront h2 B2 v).state = some s ∧
          sample_A.traverse s.1 = .ok [1, 2, 3] ∧ SizeInv s.1 sample_A) ∧
        (¬ B2.IsEmpty → ∃ s, SingleLinkedList.PopFront h2 B2 = .ok s () ∧
          sample_A.traverse s.1 = .ok [1, 2, 3] ∧ SizeInv s.1 sample_A) :=
  ⟨sample_valid, by decide, by decide, by decide, rfl, by decide,
    copy_independence sample_heap sample_A sample_B [1, 2, 3] sample_valid
      (by decide) (by decide) (by decide) rfl (by decide)⟩

/-- C6: for a list with elements `x1..xn`, the position `pos` reached from
`before_begin()` by `i ≤ n` increments (the sentinel for `i = 0`, the element `xi`
otherwise) and a value `v`, `InsertAfter(pos, v)` (the free store has room for a node)
changes the elements to `x1..xi, v, x(i+1)..xn`, raises `GetSize()` by one and returns
an iterator that dereferences to `v`, that is the position after `pos` in the new
list, and whose successor is the position that followed `pos` before the call: that
of `x(i+1)`, or `end()` if `i = n`. -/
theorem insertAfter_splices {α : Type} (h : Heap α) (self : SingleLinkedList)
    (xs : List α) (i : Nat) (v : α) (hv : h.Valid) (hinv : SizeInv h self)
    (hx : self.traverse h = .ok xs) (hi : i ≤ xs.length) (ha : 0 < h.avail) :
    ∃ pos h2 self2 it, BasicIterator.advance h self i self.before_begin = .ok pos ∧
      SingleLinkedList.InsertAfter h self pos v = .ok (h2, self2) it ∧
      self2.traverse h2 = .ok (xs.take i ++ v :: xs.drop i) ∧
      self2.GetSize = self.GetSize + 1 ∧
      it.deref h2 = .ok v ∧
      BasicIterator.advance h2 self2 (i + 1) self2.before_begin = .ok it ∧
      it.incr h2 self2 = BasicIterator.advance h self (i + 1) self.before_begin ∧
      (i = xs.length → it.incr h2 self2 = .ok self2.cend) := by
  obtain ⟨ns, hr, hmap⟩ := rep_of_inv hv hinv hx
  have hlen : ns.length = xs.length := by rw [← hmap, List.length_map]
  have hsplit : ns.take i ++ ns.drop i = ns := List.take_append_drop i ns
  have hpl : (ns.take i).length = i := by
    rw [List.length_take]; exact Nat.min_eq_left (by omega)
  have hr0 : Rep h self (ns.take i ++ ns.drop i) := by rw [hsplit]; exact hr
  obtain ⟨pos, h2, self2, hpos, hins, hv2, hr2⟩ :=
    InsertAfter_at hv (ns.take i) (ns.drop i) hr0 ha v
  rw [hpl] at hpos
  have hcell := Linked.mid (ns.take i) h.brk v (ns.drop i) hr2.2.1
  have hnext := advance_split (ns.take i) (ns.drop i) hr0
  rw [hpl] at hnext
  have hit : BasicIterator.incr h2 self2 ⟨.heap (some h.brk)⟩
      = .ok ⟨.heap (first (ns.drop i))⟩ := by
    simp [BasicIterator.incr, load_next, hcell]
  refine ⟨pos, h2, self2, ⟨.heap (some h.brk)⟩, hpos, hins, ?_, ?_, ?_, ?_, ?_, ?_⟩
  · rw [traverse_of_rep hv2 hr2, ← hmap]
    simp [List.map_take, List.map_drop]
  · show self2.size_ = self.size_ + 1
    rw [hr2.2.2, hr.2.2]
    simp only [List.length_append, List.length_cons, hpl, List.length_drop]
    omega
  · simp [BasicIterator.deref, hcell]
  · have := advance_split (ns.take i) ((h.brk, v) :: ns.drop i) hr2
    rw [hpl] at this
    simpa using this
  · rw [hnext]; exact hit
  · intro hi2
    rw [hit]
    have : ns.drop i = [] := by rw [List.drop_eq_nil_iff]; omega
    rw [this]
    rfl

theorem insertAfter_splices_witness :
    sample_heap.Valid ∧ SizeInv sample_heap sample_A ∧
    sample_A.traverse sample_heap = .ok [1, 2, 3] ∧ 2 ≤ [1, 2, 3].length ∧
    0 < sample_heap.avail ∧
    ∃ pos h2 self2 it,
      BasicIterator.advance sample_heap sample_A 2 sample_A.before_begin = .ok pos ∧
      SingleLinkedList.InsertAfter sample_heap sample_A pos 9 = .ok (h2, self2) it ∧
      self2.traverse h2 = .ok ([1, 2, 3].take 2 ++ 9 :: [1, 2, 3].drop 2) ∧
      self2.GetSize = sample_A.GetSize + 1 ∧
      it.deref h2 = .ok 9 ∧
      BasicIterator.advance h2 self2 (2 + 1) self2.before_begin = .ok it ∧
      it.incr h2 self2 = BasicIterator.advance sample_heap sample_A (2 + 1)
        sample_A.before_begin ∧
      (2 = [1, 2, 3].length → it.incr h2 self2 = .ok self2.cend) :=
  ⟨sample_valid, by decide, rfl, by decide, by decide,
    insertAfter_splices sample_heap sample_A [1, 2, 3] 2 9 sample_valid (by decide) rfl
      (by decide) (by decide)⟩

/-- C7: for a list with elements `x1..xn` and the position `pos` reached from
`before_begin()` by `i < n` increments (so `pos` has a following element),
`EraseAfter(pos)` changes the elements to `x1..xi, x(i+2)..xn`, lowers `GetSize()` by
one and returns the position that was two steps after `pos` before the call, that of
`x(i+2)`, which now follows `pos`; it is `end()` if the removed element was the last. -/
theorem eraseAfter_unlinks {α : Type} (h : Heap α) (self : SingleLinkedList)
    (xs : List α) (i : Nat) (hv : h.Valid) (hinv : SizeInv h self)
    (hx : self.traverse h = .ok xs) (hi : i < xs.length) :
    ∃ pos h2 self2 it, BasicIterator.advance h self i self.before_begin = .ok pos ∧
      SingleLinkedList.EraseAfter h self pos = .ok (h2, self2) it ∧
      self2.traverse h2 = .ok (xs.take i ++ xs.drop (i + 1)) ∧
      self2.GetSize + 1 = self.GetSize ∧
      BasicIterator.advance h self (i + 2) self.before_begin = .ok it ∧
      BasicIterator.advance h2 self2 (i + 1) self2.before_begin = .ok it ∧
      (i + 1 = xs.length → it = self2.cend) := by
  obtain ⟨ns, hr, hmap⟩ := rep_of_inv hv hinv hx
  have hlen : ns.length = xs.length := by rw [← hmap, List.length_map]
  have hsplit : ns.take i ++ ns.drop i = ns := List.take_append_drop i ns
  have hpl : (ns.take i).length = i := by
    rw [List.length_take]; exact Nat.min_eq_left (by omega)
  cases hd : ns.drop i with
  | nil =>
    have := congrArg List.length hd
    simp only [List.length_drop, List.length_nil] at this
    omega
  | cons ty post =>
    obtain ⟨t, y⟩ := ty
    have hd1 : ns.drop (i + 1) = post := by
      have := List.drop_drop 1 i ns
      rw [hd] at this
      simpa [Nat.add_comm] using this.symm
    have hr0 : Rep h self (ns.take i ++ (t, y) :: post) := by rw [← hd, hsplit]; exact hr
    obtain ⟨pos, h2, self2, hpos, hers, hv2, hr2⟩ := EraseAfter_at hv (ns.take i) t y post hr0
    rw [hpl] at hpos
    refine ⟨pos, h2, self2, ⟨.heap (first post)⟩, hpos, hers, ?_, ?_, ?_, ?_, ?_⟩
    · rw [traverse_of_rep hv2 hr2, ← hmap, ← hd1]
      simp [List.map_take, List.map_drop]
    · show self2.size_ + 1 = self.size_
      rw [hr2.2.2, hr0.2.2]
      simp only [List.length_append, List.length_cons]
      omega
    · rw [advance_before_begin_rep hr (i + 1) (by omega), hd1]
    · have := advance_split (ns.take i) post hr2
      rw [hpl] at this
      exact this
    · intro hi2
      have : post = [] := by
        rw [← hd1, List.drop_eq_nil_iff]; omega
      rw [this]
      rfl

theorem eraseAfter_unlinks_witness :
    sample_heap.Valid ∧ SizeInv sample_heap sample_A ∧
    sample_A.traverse sample_heap = .ok [1, 2, 3] ∧ 1 < [1, 2, 3].length ∧
    ∃ pos h2 self2 it,
      BasicIterator.advance sample_heap sample_A 1 sample_A.before_begin = .ok pos ∧
      SingleLinkedList.EraseAfter sample_heap sample_A pos = .ok (h2, self2) it ∧
      self2.traverse h2 = .ok ([1, 2, 3].take 1 ++ [1, 2, 3].drop (1 + 1)) ∧
      self2.GetSize + 1 = sample_A.GetSize ∧
      BasicIterator.advance sample_heap sample_A (1 + 2) sample_A.before_begin = .ok it ∧
      BasicIterator.advance h2 self2 (1 + 1) self2.before_begin = .ok it ∧
      (1 + 1 = [1, 2, 3].length → it = self2.cend) :=
  ⟨sample_valid, by decide, rfl, by decide,
    eraseAfter_unlinks sample_heap sample_A [1, 2, 3] 1 sample_valid (by decide) rfl
      (by decide)⟩

/-- C8: for every list `L` and value `v`, `InsertAfter(before_begin(), v)` and
`PushFront(v)` end in the same state, also when allocation fails; when it succeeds the
elements are `v` followed by the old ones and `GetSize()` has grown by one. -/
theorem insertAfter_before_begin_is_pushFront {α : Type} (h : Heap α)
    (L : SingleLinkedList) (xs : List α) (v : α) (hv : h.Valid) (hinv : SizeInv h L)
    (hx : L.traverse h = .ok xs) :
    (SingleLinkedList.InsertAfter h L L.before_begin v).state
      = (SingleLinkedList.PushFront h L v).state ∧
    (0 < h.avail → ∃ h2 L2 it, SingleLinkedList.PushFront h L v = .ok (h2, L2) () ∧
      SingleLinkedList.InsertAfter h L L.before_begin v = .ok (h2, L2) it ∧
      L2.traverse h2 = .ok (v :: xs) ∧ L2.GetSize = L.GetSize + 1) := by
  constructor
  · rw [InsertAfter_before_begin]
    cases SingleLinkedList.PushFront h L v <;> rfl
  · intro ha
    obtain ⟨ns, hr, hmap⟩ := rep_of_inv hv hinv hx
    obtain ⟨h2, L2, hp, hv2, hr2, _, _, _⟩ := PushFront_rep hv hr ha v
    refine ⟨h2, L2, L2.cbegin, hp, by rw [InsertAfter_before_begin, hp], ?_, ?_⟩
    · rw [traverse_of_rep hv2 hr2, ← hmap]; rfl
    · show L2.size_ = L.size_ + 1
      rw [hr2.2.2, hr.2.2]; rfl

theorem insertAfter_before_begin_is_pushFront_witness :
    sample_heap.Valid ∧ SizeInv sample_heap sample_A ∧
    sample_A.traverse sample_heap = .ok [1, 2, 3] ∧
    (SingleLinkedList.InsertAfter sample_heap sample_A sample_A.before_begin 0).state
      = (SingleLinkedList.PushFront sample_heap sample_A 0).state ∧
    0 < sample_heap.avail ∧
    (∃ h2 L2 it,
      SingleLinkedList.PushFront sample_heap sample_A 0 = .ok (h2, L2) () ∧
      SingleLinkedList.InsertAfter sample_heap sample_A sample_A.before_begin 0
        = .ok (h2, L2) it ∧
      L2.traverse h2 = .ok (0 :: [1, 2, 3]) ∧ L2.GetSize = sample_A.GetSize + 1) :=
  ⟨sample_valid, by decide, rfl,
    (insertAfter_before_begin_is_pushFront sample_heap sample_A [1, 2, 3] 0 sample_valid
      (by decide) rfl).1, by decide,
    (insertAfter_before_begin_is_pushFront sample_heap sample_A [1, 2, 3] 0 sample_valid
      (by decide) rfl).2 (by decide)⟩

/-- C9: for every non-empty list `L`, `EraseAfter(before_begin())` and `PopFront()` end in
the same state: the elements without the first one, and `GetSize()` lowered by one. -/
theorem eraseAfter_before_begin_is_popFront {α : Type} (h : Heap α)
    (L : SingleLinkedList) (xs : List α) (hv : h.Valid) (hinv : SizeInv h L)
    (hx : L.traverse h = .ok xs) (hne : L.IsEmpty = false) :
    ∃ h2 L2 it, SingleLinkedList.PopFront h L = .ok (h2, L2) () ∧
      SingleLinkedList.EraseAfter h L L.before_begin = .ok (h2, L2) it ∧
      L2.traverse h2 = .ok xs.tail ∧ L2.GetSize + 1 = L.GetSize := by
  obtain ⟨ns, hr, hmap⟩ := rep_of_inv hv hinv hx
  cases ns with
  | nil =>
    have := hr.2.2
    simp [SingleLinkedList.IsEmpty] at hne
    exact absurd this hne
  | cons x rest =>
    obtain ⟨a, w⟩ := x
    obtain ⟨L2, hp, hv2, hr2⟩ := PopFront_rep hv hr
    refine ⟨_, L2, L2.cbegin, hp, by rw [EraseAfter_before_begin, hp], ?_, ?_⟩
    · rw [traverse_of_rep hv2 hr2, ← hmap]; rfl
    · show L2.size_ + 1 = L.size_
      rw [hr2.2.2, hr.2.2]; rfl

theorem eraseAfter_before_begin_is_popFront_witness :
    sample_heap.Valid ∧ SizeInv sample_heap sample_A ∧
    sample_A.traverse sample_heap = .ok [1, 2, 3] ∧ sample_A.IsEmpty = false ∧
    ∃ h2 L2 it, SingleLinkedList.PopFront sample_heap sample_A = .ok (h2, L2) () ∧
      SingleLinkedList.EraseAfter sample_heap sample_A sample_A.before_begin
        = .ok (h2, L2) it ∧
      L2.traverse h2 = .ok [1, 2, 3].tail ∧ L2.GetSize + 1 = sample_A.GetSize :=
  ⟨sample_valid, by decide, rfl, by decide,
    eraseAfter_before_begin_is_popFront sample_heap sample_A [1, 2, 3] sample_valid
      (by decide) rfl (by decide)⟩

/-- C10: for two lists `a` and `b` satisfying the size invariant, `operator==(a, b)` returns,
and it returns true if and only if `a.GetSize() == b.GetSize()` and at every index
below that size the elements of `a` and `b` are equal under the `==` of the element
type; `operator!=` returns the negation.  `{1,2,3} == {1,2,3}` is true and
`{1,2} == {1,2,3}` is false. -/
theorem operator_eq_iff {α : Type} [BEq α] (h : Heap α) (a b : SingleLinkedList)
    (xs ys : List α) (hv : h.Valid) (ha : SizeInv h a) (hb : SizeInv h b)
    (hxa : a.traverse h = .ok xs) (hxb : b.traverse h = .ok ys) :
    (∃ r, operator_eq h a b = .ok r ∧ operator_ne h a b = .ok (!r) ∧
      (r = true ↔ a.GetSize = b.GetSize ∧
        ∀ i, i < a.GetSize → ∀ x y, xs[i]? = some x → ys[i]? = some y → (x == y) = true)) ∧
    compare_initializer_lists [1, 2, 3] [1, 2, 3] = some (.ok true) ∧
    compare_initializer_lists [1, 2] [1, 2, 3] = some (.ok false) := by
  refine ⟨?_, rfl, rfl⟩
  obtain ⟨ns, hra, hma⟩ := rep_of_inv hv ha hxa
  obtain ⟨ms, hrb, hmb⟩ := rep_of_inv hv hb hxb
  have hstd := std_equal_of_linked h a b ns ms h.brk hra.2.1 hrb.2.1
    (Linked.length_le hv hra.2.1)
  rw [hma, hmb] at hstd
  have he : operator_eq h a b = .ok (list_equal xs ys) := by
    unfold operator_eq SingleLinkedList.cbegin SingleLinkedList.cend
    rw [hra.1, hrb.1]; exact hstd
  have hn : operator_ne h a b = .ok (!list_equal xs ys) := by
    unfold operator_ne SingleLinkedList.cbegin SingleLinkedList.cend
    rw [hra.1, hrb.1, hstd]
  refine ⟨_, he, hn, ?_⟩
  have hla : a.GetSize = xs.length := by
    show a.size_ = _
    rw [hra.2.2, ← hma, List.length_map]
  have hlb : b.GetSize = ys.length := by
    show b.size_ = _
    rw [hrb.2.2, ← hmb, List.length_map]
  rw [list_equal_iff, hla, hlb]
  rfl

theorem operator_eq_iff_witness :
    sample_heap.Valid ∧ SizeInv sample_heap sample_A ∧ SizeInv sample_heap sample_B ∧
    sample_A.traverse sample_heap = .ok [1, 2, 3] ∧
    sample_B.traverse sample_heap = .ok [7] ∧
    ((∃ r, operator_eq sample_heap sample_A sample_B = .ok r ∧
        operator_ne sample_heap sample_A sample_B = .ok (!r) ∧
        (r = true ↔ sample_A.GetSize = sample_B.GetSize ∧
          ∀ i, i < sample_A.GetSize → ∀ x y, [1, 2, 3][i]? = some x → [7][i]? = some y →
            (x == y) = true)) ∧
      compare_initializer_lists [1, 2, 3] [1, 2, 3] = some (.ok true) ∧
      compare_initializer_lists [1, 2] [1, 2, 3] = some (.ok false)) :=
  ⟨sample_valid, by decide, by decide, rfl, rfl,
    operator_eq_iff sample_heap sample_A sample_B [1, 2, 3] [7] sample_valid (by decide)
      (by decide) rfl rfl⟩

/-- C1: the size invariant (`size_` is the number of nodes reachable from
`head_.next_node` by following `next_node` until null) holds for a default-constructed
list, and every operation started on lists that satisfy it completes, by returning or
by throwing `std::bad_alloc`, with lists that satisfy it: `PushFront`, `InsertAfter`
at a position reached from `before_begin()` by at most `size_` increments, `PopFront`
on a non-empty list, `EraseAfter` at a position with a following element, `Clear`,
`swap` (for both lists), copy assignment (for the target, and for the source when the
two own separate chains) and construction from an initializer list. -/
theorem size_invariant_preserved {α : Type} (h : Heap α) (self other : SingleLinkedList)
    (hv : h.Valid) (hinv : SizeInv h self) (hother : SizeInv h other) :
    SizeInv h SingleLinkedList.ctor ∧
    (∀ v : α, ∃ s, (SingleLinkedList.PushFront h self v).state = some s ∧ s.1.Valid ∧
      SizeInv s.1 s.2) ∧
    (∀ (i : Nat) (v : α), i ≤ self.GetSize →
      ∃ pos, BasicIterator.advance h self i self.before_begin = .ok pos ∧
        ∃ s, (SingleLinkedList.InsertAfter h self pos v).state = some s ∧ s.1.Valid ∧
          SizeInv s.1 s.2) ∧
    (self.IsEmpty = false →
      ∃ s, SingleLinkedList.PopFront h self = .ok s () ∧ s.1.Valid ∧ SizeInv s.1 s.2) ∧
    (∀ i : Nat, i < self.GetSize →
      ∃ pos, BasicIterator.advance h self i self.before_begin = .ok pos ∧
        ∃ s it, SingleLinkedList.EraseAfter h self pos = .ok s it ∧ s.1.Valid ∧
          SizeInv s.1 s.2) ∧
    (∃ s, SingleLinkedList.Clear h self = .ok s () ∧ s.1.Valid ∧ SizeInv s.1 s.2) ∧
    (SizeInv h (self.swap other).1 ∧ SizeInv h (self.swap other).2) ∧
    (∃ s, (SingleLinkedList.assign h self (.other other)).state = some s ∧ s.1.Valid ∧
      SizeInv s.1 s.2 ∧ (share_no_node h self other → SizeInv s.1 other)) ∧
    (SingleLinkedList.assign h self .this = .ok (h, self) ()) ∧
    (∀ values : List α, ∃ s,
      (SingleLinkedList.from_initializer_list h values).state = some s ∧ s.1.Valid ∧
        SizeInv s.1 s.2 ∧ SizeInv s.1 self) := by
  obtain ⟨ns, hr⟩ := (sizeInv_iff_rep hv self).1 hinv
  obtain ⟨ms, hro⟩ := (sizeInv_iff_rep hv other).1 hother
  have hsz : self.GetSize = ns.length := hr.2.2
  refine ⟨inv_of_rep hv (rep_nil h), ?_, ?_, ?_, ?_, ?_, ⟨hother, hinv⟩, ?_, rfl, ?_⟩
  · intro v
    by_cases ha : h.avail = 0
    · exact ⟨(h, self), by rw [PushFront_bad_alloc h self v ha]; rfl, hv, hinv⟩
    · obtain ⟨h2, l2, hp, hv2, hr2, _⟩ := PushFront_rep hv hr (Nat.pos_of_ne_zero ha) v
      exact ⟨(h2, l2), by rw [hp]; rfl, hv2, inv_of_rep hv2 hr2⟩
  · intro i v hi
    rw [hsz] at hi
    have hsplit : ns.take i ++ ns.drop i = ns := List.take_append_drop i ns
    have hpl : (ns.take i).length = i := by
      rw [List.length_take]; exact Nat.min_eq_left hi
    have hr0 : Rep h self (ns.take i ++ ns.drop i) := by rw [hsplit]; exact hr
    by_cases ha : h.avail = 0
    · cases i with
      | zero =>
        refine ⟨self.before_begin, rfl, (h, self), ?_, hv, hinv⟩
        rw [InsertAfter_bad_alloc h self self.before_begin v self.head_.next_node rfl ha]
        rfl
      | succ k =>
        have hadv := advance_before_begin_rep hr k (by omega)
        cases hd : ns.drop k with
        | nil =>
          have := congrArg List.length hd
          simp only [List.length_drop, List.length_nil] at this
          omega
        | cons ax post =>
          obtain ⟨a, x⟩ := ax
          rw [hd] at hadv
          have hsp : ns.take k ++ (a, x) :: post = ns := by
            rw [← hd]; exact List.take_append_drop k ns
          have hca := Linked.mid (ns.take k) a x post (by rw [hsp]; exact hr.2.1)
          refine ⟨_, hadv, (h, self), ?_, hv, hinv⟩
          rw [InsertAfter_bad_alloc h self _ v (first post)
            (by simp [load_next, hca]) ha]
          rfl
    · obtain ⟨pos, h2, self2, hpos, hins, hv2, hr2⟩ :=
        InsertAfter_at hv (ns.take i) (ns.drop i) hr0 (Nat.pos_of_ne_zero ha) v
      rw [hpl] at hpos
      exact ⟨pos, hpos, (h2, self2), by rw [hins]; rfl, hv2, inv_of_rep hv2 hr2⟩
  · intro hne
    cases ns with
    | nil =>
      have := hr.2.2
      simp [SingleLinkedList.IsEmpty] at hne
      exact absurd this hne
    | cons x rest =>
      obtain ⟨a, w⟩ := x
      obtain ⟨l2, hp, hv2, hr2⟩ := PopFront_rep hv hr
      exact ⟨(_, l2), hp, hv2, inv_of_rep hv2 hr2⟩
  · intro i hi
    rw [hsz] at hi
    have hsplit : ns.take i ++ ns.drop i = ns := List.take_append_drop i ns
    have hpl : (ns.take i).length = i := by
      rw [List.length_take]; exact Nat.min_eq_left (by omega)
    cases hd : ns.drop i with
    | nil =>
      have := congrArg List.length hd
      simp only [List.length_drop, List.length_nil] at this
      omega
    | cons ty post =>
      obtain ⟨t, y⟩ := ty
      have hr0 : Rep h self (ns.take i ++ (t, y) :: post) := by
        rw [← hd, hsplit]; exact hr
      obtain ⟨pos, h2, self2, hpos, hers, hv2, hr2⟩ :=
        EraseAfter_at hv (ns.take i) t y post hr0
      rw [hpl] at hpos
      exact ⟨pos, hpos, (h2, self2), _, hers, hv2, inv_of_rep hv2 hr2⟩
  · obtain ⟨h2, hc, hv2, _⟩ := Clear_rep hv hr
    exact ⟨(h2, {}), hc, hv2, inv_of_rep hv2 (rep_nil h2)⟩
  · obtain ⟨s, hs, hv2, hi2, hrhs⟩ := assign_total hv hr hro
    exact ⟨s, hs, hv2, hi2,
      fun hd => inv_of_rep hv2 (hrhs (disjoint_of_nodes hv hr hro hd))⟩
  · intro values
    obtain ⟨s, hs, hv2, hi2, hf⟩ := from_initializer_list_total hv values
    exact ⟨s, hs, hv2, hi2,
      inv_of_rep hv2 (hr.transfer (fun x hx => hf x.1 (Linked.addr_lt hv hr.2.1 x hx)))⟩

theorem size_invariant_preserved_witness :
    sample_heap.Valid ∧ SizeInv sample_heap sample_A ∧ SizeInv sample_heap sample_B ∧
    (SizeInv sample_heap SingleLinkedList.ctor ∧
    (∀ v : Nat, ∃ s, (SingleLinkedList.PushFront sample_heap sample_A v).state = some s ∧
      s.1.Valid ∧ SizeInv s.1 s.2) ∧
    (∀ (i : Nat) (v : Nat), i ≤ sample_A.GetSize →
      ∃ pos, BasicIterator.advance sample_heap sample_A i sample_A.before_begin = .ok pos ∧
        ∃ s, (SingleLinkedList.InsertAfter sample_heap sample_A pos v).state = some s ∧
          s.1.Valid ∧ SizeInv s.1 s.2) ∧
    (sample_A.IsEmpty = false →
      ∃ s, SingleLinkedList.PopFront sample_heap sample_A = .ok s () ∧ s.1.Valid ∧
        SizeInv s.1 s.2) ∧
    (∀ i : Nat, i < sample_A.GetSize →
      ∃ pos, BasicIterator.advance sample_heap sample_A i sample_A.before_begin = .ok pos ∧
        ∃ s it, SingleLinkedList.EraseAfter sample_heap sample_A pos = .ok s it ∧
          s.1.Valid ∧ SizeInv s.1 s.2) ∧
    (∃ s, SingleLinkedList.Clear sample_heap sample_A = .ok s () ∧ s.1.Valid ∧
      SizeInv s.1 s.2) ∧
    (SizeInv sample_heap (sample_A.swap sample_B).1 ∧
      SizeInv sample_heap (sample_A.swap sample_B).2) ∧
    (∃ s, (SingleLinkedList.assign sample_heap sample_A (.other sample_B)).state = some s ∧
      s.1.Valid ∧ SizeInv s.1 s.2 ∧
      (share_no_node sample_heap sample_A sample_B → SizeInv s.1 sample_B)) ∧
    (SingleLinkedList.assign sample_heap sample_A .this = .ok (sample_heap, sample_A) ()) ∧
    (∀ values : List Nat, ∃ s,
      (SingleLinkedList.from_initializer_list sample_heap values).state = some s ∧
        s.1.Valid ∧ SizeInv s.1 s.2 ∧ SizeInv s.1 sample_A)) :=
  ⟨sample_valid, by decide, by decide,
    size_invariant_preserved sample_heap sample_A sample_B sample_valid (by decide)
      (by decide)⟩

/-- C12: when the `==` of the element type is reflexive, symmetric and transitive, so is
`operator==` on lists: `a == a`; `a == b` implies `b == a`; `a == b` and `b == c`
imply `a == c`. -/
theorem operator_eq_equivalence {α : Type} [BEq α] (h : Heap α) (a b c : SingleLinkedList)
    (hrefl : ∀ x : α, (x == x) = true)
    (hsymm : ∀ x y : α, (x == y) = true → (y == x) = true)
    (htrans : ∀ x y z : α, (x == y) = true → (y == z) = true → (x == z) = true)
    (hv : h.Valid) (ha : SizeInv h a) (hb : SizeInv h b) (hc : SizeInv h c) :
    operator_eq h a a = .ok true ∧
    (operator_eq h a b = .ok true → operator_eq h b a = .ok true) ∧
    (operator_eq h a b = .ok true → operator_eq h b c = .ok true →
      operator_eq h a c = .ok true) := by
  obtain ⟨ns, hra⟩ := (sizeInv_iff_rep hv a).1 ha
  obtain ⟨ms, hrb⟩ := (sizeInv_iff_rep hv b).1 hb
  obtain ⟨ks, hrc⟩ := (sizeInv_iff_rep hv c).1 hc
  rw [operator_eq_of_rep hv hra hra, operator_eq_of_rep hv hra hrb,
    operator_eq_of_rep hv hrb hra, operator_eq_of_rep hv hrb hrc,
    operator_eq_of_rep hv hra hrc]
  refine ⟨?_, ?_, ?_⟩
  · rw [list_equal_refl hrefl]
  · intro h1
    rw [list_equal_symm hsymm _ _ (Except.ok.inj h1)]
  · intro h1 h2
    rw [list_equal_trans htrans _ _ _ (Except.ok.inj h1) (Except.ok.inj h2)]

theorem operator_eq_equivalence_witness :
    (∀ x : Nat, (x == x) = true) ∧
    (∀ x y : Nat, (x == y) = true → (y == x) = true) ∧
    (∀ x y z : Nat, (x == y) = true → (y == z) = true → (x == z) = true) ∧
    sample_heap.Valid ∧ SizeInv sample_heap sample_A ∧ SizeInv sample_heap sample_B ∧
    SizeInv sample_heap sample_A ∧
    operator_eq sample_heap sample_A sample_A = .ok true ∧
    (operator_eq sample_heap sample_A sample_B = .ok true →
      operator_eq sample_heap sample_B sample_A = .ok true) ∧
    (operator_eq sample_heap sample_A sample_B = .ok true →
      operator_eq sample_heap sample_B sample_A = .ok true →
      operator_eq sample_heap sample_A sample_A = .ok true) :=
  ⟨fun x => by simp, fun x y hxy => by rw [beq_iff_eq] at hxy ⊢; exact hxy.symm,
    fun x y z h1 h2 => by rw [beq_iff_eq] at h1 h2 ⊢; exact h1.trans h2,
    sample_valid, by decide, by decide, by decide,
    operator_eq_equivalence sample_heap sample_A sample_B sample_A (fun x => by simp)
      (fun x y hxy => by rw [beq_iff_eq] at hxy ⊢; exact hxy.symm)
      (fun x y z h1 h2 => by rw [beq_iff_eq] at h1 h2 ⊢; exact h1.trans h2)
      sample_valid (by decide) (by decide) (by decide)⟩

/-- C13: for every list satisfying the size invariant, `Clear()` returns, and afterwards
`GetSize()` is 0, `IsEmpty()` is true, the link of the sentinel is null,
`begin() == end()`, the traversal is empty and every node the list owned is destroyed. -/
theorem clear_empties {α : Type} (h : Heap α) (L : SingleLinkedList) (hv : h.Valid)
    (hinv : SizeInv h L) :
    ∃ h2 L2, SingleLinkedList.Clear h L = .ok (h2, L2) () ∧ L2.GetSize = 0 ∧
      L2.IsEmpty = true ∧ L2.head_.next_node = none ∧ L2.cbegin.op_eq L2.cend = true ∧
      L2.traverse h2 = .ok ([] : List α) ∧ (∀ a ∈ L.nodes h, h2.cells a = none) := by
  obtain ⟨ns, hr⟩ := (sizeInv_iff_rep hv L).1 hinv
  obtain ⟨h2, hc, hv2, _, _, hdel, _⟩ := Clear_rep hv hr
  refine ⟨h2, {}, hc, rfl, rfl, rfl, rfl, traverse_of_rep hv2 (rep_nil h2), ?_⟩
  intro a ha
  rw [nodes_of_rep hv hr] at ha
  obtain ⟨x, hx, rfl⟩ := List.mem_map.1 ha
  exact hdel x hx

theorem clear_empties_witness :
    sample_heap.Valid ∧ SizeInv sample_heap sample_A ∧
    ∃ h2 L2, SingleLinkedList.Clear sample_heap sample_A = .ok (h2, L2) () ∧ L2.GetSize = 0 ∧
      L2.IsEmpty = true ∧ L2.head_.next_node = none ∧ L2.cbegin.op_eq L2.cend = true ∧
      L2.traverse h2 = .ok ([] : List Nat) ∧
      (∀ a ∈ sample_A.nodes sample_heap, h2.cells a = none) :=
  ⟨sample_valid, by decide, clear_empties sample_heap sample_A sample_valid (by decide)⟩

/-- C14: after `A.swap(B)`, and likewise after the free function `swap(A, B)`, the elements
and `GetSize()` of `A` are those `B` had and the other way round.  The free store is
not touched: `A` now owns exactly the nodes `B` owned, at the same addresses, and
`B` those of `A`; only the links of the two sentinels and the sizes are exchanged. -/
theorem swap_exchanges {α : Type} (h : Heap α) (A B : SingleLinkedList) :
    (A.swap B).1.traverse h = B.traverse h ∧ (A.swap B).1.GetSize = B.GetSize ∧
    (A.swap B).2.traverse h = A.traverse h ∧ (A.swap B).2.GetSize = A.GetSize ∧
    (A.swap B).1.nodes h = B.nodes h ∧ (A.swap B).2.nodes h = A.nodes h ∧
    (A.swap B).1.head_.next_node = B.head_.next_node ∧
    (A.swap B).2.head_.next_node = A.head_.next_node ∧
    swap A B = A.swap B :=
  ⟨rfl, rfl, rfl, rfl, rfl, rfl, rfl, rfl, rfl⟩

/-- C17: self-assignment `L = L` is a no-op: it returns with the free store as it was (no
node is created or destroyed) and with the list object as it was, so the elements,
`GetSize()` and the chain of nodes are unchanged. -/
theorem self_assignment_noop {α : Type} (h : Heap α) (L : SingleLinkedList) :
    ∃ h2 L2, SingleLinkedList.assign h L .this = .ok (h2, L2) () ∧ h2.cells = h.cells ∧
      h2.brk = h.brk ∧ h2.avail = h.avail ∧ L2 = L ∧ L2.traverse h2 = L.traverse h ∧
      L2.GetSize = L.GetSize ∧ L2.nodes h2 = L.nodes h :=
  ⟨h, L, rfl, rfl, rfl, rfl, rfl, rfl, rfl, rfl⟩

/-- C11: for two lists `a` and `b` over an element type whose `<` is irreflexive and total
(any two elements are equal or one is less than the other, as in a strict total
order), `operator<(a, b)` returns, and it returns true if and only if the elements of
`a` are a strict initial segment of those of `b`, or at the first index at which the
two sequences differ the element of `a` is less than that of `b`.  A list is never
less than itself; `{1,2,3} < {1,2,4}` and `{1,2} < {1,2,3}` are true. -/
theorem operator_lt_lexicographic {α : Type} (lt : α → α → Bool) (h : Heap α)
    (a b : SingleLinkedList) (xs ys : List α) (hirr : ∀ x, lt x x = false)
    (htri : ∀ x y, lt x y = true ∨ x = y ∨ lt y x = true)
    (hv : h.Valid) (ha : SizeInv h a) (hb : SizeInv h b)
    (hxa : a.traverse h = .ok xs) (hxb : b.traverse h = .ok ys) :
    (∃ r, operator_lt lt h a b = .ok r ∧ (r = true ↔ less_elements lt xs ys)) ∧
    operator_lt lt h a a = .ok false ∧
    less_initializer_lists [1, 2, 3] [1, 2, 4] = some (.ok true) ∧
    less_initializer_lists [1, 2] [1, 2, 3] = some (.ok true) := by
  obtain ⟨ns, hra, hma⟩ := rep_of_inv hv ha hxa
  obtain ⟨ms, hrb, hmb⟩ := rep_of_inv hv hb hxb
  refine ⟨⟨_, operator_lt_of_rep lt hv hra hrb, ?_⟩, ?_, rfl, rfl⟩
  · rw [hma, hmb]
    exact list_less_iff lt hirr htri xs ys
  · rw [operator_lt_of_rep lt hv hra hra]
    cases hl : list_less lt (ns.map Prod.snd) (ns.map Prod.snd) with
    | false => rfl
    | true =>
      rcases (list_less_iff lt hirr htri _ _).1 hl with ⟨zs, hz, he⟩ | ⟨i, x, y, hx, hy, _, hne, _⟩
      · have := congrArg List.length he
        simp only [List.length_append] at this
        have hz2 : zs.length = 0 := by omega
        exact absurd (List.length_eq_zero.1 hz2) hz
      · rw [hx] at hy
        exact absurd (Option.some.inj hy) hne

theorem operator_lt_lexicographic_witness :
    (∀ x : Nat, decide (x < x) = false) ∧
    (∀ x y : Nat, decide (x < y) = true ∨ x = y ∨ decide (y < x) = true) ∧
    sample_heap.Valid ∧ SizeInv sample_heap sample_A ∧ SizeInv sample_heap sample_B ∧
    sample_A.traverse sample_heap = .ok [1, 2, 3] ∧
    sample_B.traverse sample_heap = .ok [7] ∧
    ((∃ r, operator_lt (fun x y : Nat => decide (x < y)) sample_heap sample_A sample_B = .ok r ∧
        (r = true ↔ less_elements (fun x y : Nat => decide (x < y)) [1, 2, 3] [7])) ∧
      operator_lt (fun x y : Nat => decide (x < y)) sample_heap sample_A sample_A = .ok false ∧
      less_initializer_lists [1, 2, 3] [1, 2, 4] = some (.ok true) ∧
      less_initializer_lists [1, 2] [1, 2, 3] = some (.ok true)) :=
  ⟨fun x => by simp, fun x y => by simp; omega, sample_valid, by decide, by decide, rfl, rfl,
    operator_lt_lexicographic (fun x y : Nat => decide (x < y)) sample_heap sample_A sample_B
      [1, 2, 3] [7] (fun x => by simp) (fun x y => by simp; omega) sample_valid
      (by decide) (by decide) rfl rfl⟩

/-- C20: for two lists `a` and `b` over an element type whose `<` is a strict total order
and whose `==` holds exactly between equal elements, all five comparisons return,
`a <= b` is the negation of `a > b`, `a >= b` is the negation of `a < b`, and exactly
one of `a < b`, `a == b`, `a > b` is true. -/
theorem derived_operators_agree {α : Type} [BEq α] (lt : α → α → Bool) (h : Heap α)
    (a b : SingleLinkedList) (hirr : ∀ x, lt x x = false)
    (htrans : ∀ x y z, lt x y = true → lt y z = true → lt x z = true)
    (htri : ∀ x y, lt x y = true ∨ x = y ∨ lt y x = true)
    (heq : ∀ x y : α, (x == y) = true ↔ x = y)
    (hv : h.Valid) (ha : SizeInv h a) (hb : SizeInv h b) :
    ∃ blt beq bgt, operator_lt lt h a b = .ok blt ∧ operator_eq h a b = .ok beq ∧
      operator_gt lt h a b = .ok bgt ∧
      operator_le lt h a b = .ok (!bgt) ∧ operator_ge lt h a b = .ok (!blt) ∧
      ((blt = true ∧ beq = false ∧ bgt = false) ∨ (blt = false ∧ beq = true ∧ bgt = false) ∨
        (blt = false ∧ beq = false ∧ bgt = true)) := by
  obtain ⟨ns, hra⟩ := (sizeInv_iff_rep hv a).1 ha
  obtain ⟨ms, hrb⟩ := (sizeInv_iff_rep hv b).1 hb
  have hlt := operator_lt_of_rep lt hv hra hrb
  have hgt := operator_lt_of_rep lt hv hrb hra
  have he := operator_eq_of_rep hv hra hrb
  have he2 := operator_eq_of_rep hv hrb hra
  refine ⟨_, _, _, hlt, he, hgt, ?_, ?_, ?_⟩
  · unfold operator_le
    rw [hlt, he2]
    rcases list_trichotomy lt hirr htrans htri heq (ns.map Prod.snd) (ms.map Prod.snd)
      with ⟨h1, h2, h3, h4⟩ | ⟨h1, h2, h3, h4⟩ | ⟨h1, h2, h3, h4⟩ <;> simp [h1, h3, h4]
  · unfold operator_ge operator_gt
    rw [hgt, he2]
    rcases list_trichotomy lt hirr htrans htri heq (ns.map Prod.snd) (ms.map Prod.snd)
      with ⟨h1, h2, h3, h4⟩ | ⟨h1, h2, h3, h4⟩ | ⟨h1, h2, h3, h4⟩ <;> simp [h1, h3, h4]
  · rcases list_trichotomy lt hirr htrans htri heq (ns.map Prod.snd) (ms.map Prod.snd)
      with ⟨h1, h2, h3, h4⟩ | ⟨h1, h2, h3, h4⟩ | ⟨h1, h2, h3, h4⟩ <;> simp [h1, h2, h4]

theorem derived_operators_agree_witness :
    (∀ x : Nat, decide (x < x) = false) ∧
    (∀ x y z : Nat, decide (x < y) = true → decide (y < z) = true → decide (x < z) = true) ∧
    (∀ x y : Nat, decide (x < y) = true ∨ x = y ∨ decide (y < x) = true) ∧
    (∀ x y : Nat, (x == y) = true ↔ x = y) ∧
    sample_heap.Valid ∧ SizeInv sample_heap sample_A ∧ SizeInv sample_heap sample_B ∧
    ∃ blt beq bgt,
      operator_lt (fun x y : Nat => decide (x < y)) sample_heap sample_A sample_B = .ok blt ∧
      operator_eq sample_heap sample_A sample_B = .ok beq ∧
      operator_gt (fun x y : Nat => decide (x < y)) sample_heap sample_A sample_B = .ok bgt ∧
      operator_le (fun x y : Nat => decide (x < y)) sample_heap sample_A sample_B
        = .ok (!bgt) ∧
      operator_ge (fun x y : Nat => decide (x < y)) sample_heap sample_A sample_B
        = .ok (!blt) ∧
      ((blt = true ∧ beq = false ∧ bgt = false) ∨ (blt = false ∧ beq = true ∧ bgt = false) ∨
        (blt = false ∧ beq = false ∧ bgt = true)) :=
  ⟨fun x => by simp, fun x y z h1 h2 => by simp at h1 h2 ⊢; omega,
    fun x y => by simp; omega, fun x y => beq_iff_eq, sample_valid, by decide, by decide,
    derived_operators_agree (fun x y : Nat => decide (x < y)) sample_heap sample_A sample_B
      (fun x => by simp) (fun x y z h1 h2 => by simp at h1 h2 ⊢; omega)
      (fun x y => by simp; omega) (fun x y => beq_iff_eq) sample_valid (by decide)
      (by decide)⟩

/-- C15: for every list `L` reachable through the public operations, `cbegin()` incremented
`L.GetSize()` times equals `cend()`; after a smaller number `k` of increments the
iterator is not equal to `cend()` and dereferences to the element of index `k` of the
traversal. -/
theorem cbegin_advances_to_cend {α : Type} (h : Heap α) (L : SingleLinkedList)
    (hr : Reachable h L) :
    BasicIterator.advance h L L.GetSize L.cbegin = .ok L.cend ∧
    ∀ k, k < L.GetSize → ∃ it x xs, BasicIterator.advance h L k L.cbegin = .ok it ∧
      it.op_eq L.cend = false ∧ it.deref h = .ok x ∧
      L.traverse h = .ok xs ∧ xs[k]? = some x := by
  obtain ⟨hv, hinv⟩ := reachable_inv hr
  obtain ⟨ns, hrep⟩ := (sizeInv_iff_rep hv L).1 hinv
  have hsz : L.GetSize = ns.length := hrep.2.2
  have hb : L.cbegin = ⟨.heap (first ns)⟩ := by
    unfold SingleLinkedList.cbegin; rw [hrep.1]
  rw [hsz, hb]
  constructor
  · rw [advance_of_linked h L ns ns.length hrep.2.1 (Nat.le_refl _)]
    simp [SingleLinkedList.cend]
  · intro k hk
    cases hd : ns.drop k with
    | nil =>
      have := congrArg List.length hd
      simp only [List.length_drop, List.length_nil] at this
      omega
    | cons ax post =>
      obtain ⟨a, x⟩ := ax
      have hsp : ns.take k ++ (a, x) :: post = ns := by
        rw [← hd]; exact List.take_append_drop k ns
      have hca := Linked.mid (ns.take k) a x post (by rw [hsp]; exact hrep.2.1)
      refine ⟨⟨.heap (some a)⟩, x, ns.map Prod.snd, ?_, ?_, ?_, traverse_of_rep hv hrep, ?_⟩
      · rw [advance_of_linked h L ns k hrep.2.1 (Nat.le_of_lt hk), hd]
        rfl
      · simp [BasicIterator.op_eq, SingleLinkedList.cend]
      · simp [BasicIterator.deref, hca]
      · have h0 : (ns.drop k)[0]? = some (a, x) := by rw [hd]; simp
        rw [List.getElem?_drop] at h0
        simp only [Nat.add_zero] at h0
        rw [List.getElem?_map, h0]
        rfl

theorem cbegin_advances_to_cend_witness :
    Reachable sample_built.1 sample_built.2 ∧
    BasicIterator.advance sample_built.1 sample_built.2 sample_built.2.GetSize
      sample_built.2.cbegin = .ok sample_built.2.cend ∧
    ∀ k, k < sample_built.2.GetSize → ∃ it x xs,
      BasicIterator.advance sample_built.1 sample_built.2 k sample_built.2.cbegin = .ok it ∧
      it.op_eq sample_built.2.cend = false ∧ it.deref sample_built.1 = .ok x ∧
      sample_built.2.traverse sample_built.1 = .ok xs ∧ xs[k]? = some x :=
  ⟨sample_built_reachable,
    cbegin_advances_to_cend sample_built.1 sample_built.2 sample_built_reachable⟩

/-- C18: for every list reachable through the public operations, `begin() == end()` (and
`cbegin() == cend()`, the same function in the embedding) holds if and only if
`IsEmpty()` is true, that is if and only if `GetSize() == 0`; when the list is not
empty, `begin()` dereferences to the first element of the traversal. -/
theorem begin_is_end_iff_empty {α : Type} (h : Heap α) (L : SingleLinkedList)
    (hr : Reachable h L) :
    (L.cbegin.op_eq L.cend = true ↔ L.IsEmpty = true) ∧
    (L.IsEmpty = true ↔ L.GetSize = 0) ∧
    (L.IsEmpty = false → ∃ x xs, L.cbegin.deref h = .ok x ∧ L.traverse h = .ok (x :: xs)) := by
  obtain ⟨hv, hinv⟩ := reachable_inv hr
  obtain ⟨ns, hrep⟩ := (sizeInv_iff_rep hv L).1 hinv
  have hsz : L.size_ = ns.length := hrep.2.2
  have hb : L.cbegin = ⟨.heap (first ns)⟩ := by
    unfold SingleLinkedList.cbegin; rw [hrep.1]
  have htr := traverse_of_rep hv hrep
  cases ns with
  | nil =>
    simp only [List.length_nil] at hsz
    refine ⟨?_, ?_, ?_⟩
    · simp [hb, BasicIterator.op_eq, SingleLinkedList.cend, SingleLinkedList.IsEmpty, hsz]
    · simp [SingleLinkedList.IsEmpty, SingleLinkedList.GetSize, hsz]
    · simp [SingleLinkedList.IsEmpty, hsz]
  | cons ax rest =>
    obtain ⟨a, x⟩ := ax
    simp only [List.length_cons] at hsz
    refine ⟨?_, ?_, ?_⟩
    · simp [hb, BasicIterator.op_eq, SingleLinkedList.cend, SingleLinkedList.IsEmpty, hsz]
    · simp [SingleLinkedList.IsEmpty, SingleLinkedList.GetSize, hsz]
    · intro _
      refine ⟨x, rest.map Prod.snd, ?_, htr⟩
      simp [hb, BasicIterator.deref, hrep.2.1.1]

theorem begin_is_end_iff_empty_witness :
    Reachable sample_built.1 sample_built.2 ∧
    (sample_built.2.cbegin.op_eq sample_built.2.cend = true ↔
      sample_built.2.IsEmpty = true) ∧
    (sample_built.2.IsEmpty = true ↔ sample_built.2.GetSize = 0) ∧
    (sample_built.2.IsEmpty = false → ∃ x xs,
      sample_built.2.cbegin.deref sample_built.1 = .ok x ∧
      sample_built.2.traverse sample_built.1 = .ok (x :: xs)) :=
  ⟨sample_built_reachable,
    begin_is_end_iff_empty sample_built.1 sample_built.2 sample_built_reachable⟩

/-- C19: `Clear()` is safe and terminating under the size invariant.  The loop
`while (size_)` bounded to `fuel` iterations completes exactly when `fuel` is at least
`size_`, so it executes exactly `size_` iterations; it never dereferences a null or
dangling `head_.next_node`; on exit `head_.next_node` is null.  The destructor
therefore returns on every list reachable through the public operations. -/
theorem clear_loop_safe {α : Type} (h : Heap α) (L : SingleLinkedList) (hv : h.Valid)
    (hinv : SizeInv h L) :
    (∀ fuel, fuel < L.size_ →
      SingleLinkedList.Clear_loop fuel h L = .fault .out_of_fuel) ∧
    (∀ fuel, L.size_ ≤ fuel → ∃ h2 L2, SingleLinkedList.Clear_loop fuel h L = .ok (h2, L2) () ∧
      L2.head_.next_node = none ∧ L2.size_ = 0) ∧
    (∀ fuel, SingleLinkedList.Clear_loop fuel h L ≠ .fault .undefined_behavior) ∧
    (∃ h2 L2, SingleLinkedList.Clear h L = .ok (h2, L2) () ∧ L2.head_.next_node = none) ∧
    (∀ (h1 : Heap α) (L1 : SingleLinkedList), Reachable h1 L1 →
      ∃ h2 L2, SingleLinkedList.dtor h1 L1 = .ok (h2, L2) () ∧ L2.head_.next_node = none) := by
  obtain ⟨ns, hrep⟩ := (sizeInv_iff_rep hv L).1 hinv
  obtain ⟨h2, hc, _⟩ := Clear_loop_rep ns h L hv hrep
  have hfuel := fun fuel => Clear_loop_fuel ns fuel h L hv hrep
  rw [hrep.2.2]
  refine ⟨?_, ?_, ?_, ?_, ?_⟩
  · intro fuel hlt
    rw [hfuel fuel, if_neg (Nat.not_le_of_gt hlt)]
  · intro fuel hle
    rw [hfuel fuel, if_pos hle, hc]
    exact ⟨h2, {}, rfl, rfl, rfl⟩
  · intro fuel
    rw [hfuel fuel]
    by_cases hle : ns.length ≤ fuel
    · rw [if_pos hle, hc]
      exact fun hcon => Res.noConfusion hcon
    · rw [if_neg hle]
      intro hcon
      cases hcon
  · obtain ⟨h3, hc3, _⟩ := Clear_rep hv hrep
    exact ⟨h3, {}, hc3, rfl⟩
  · intro h1 L1 hr1
    obtain ⟨hv1, hinv1⟩ := reachable_inv hr1
    obtain ⟨ms, hrep1⟩ := (sizeInv_iff_rep hv1 L1).1 hinv1
    obtain ⟨h3, hc3, _⟩ := Clear_rep hv1 hrep1
    exact ⟨h3, {}, hc3, rfl⟩

theorem clear_loop_safe_witness :
    sample_heap.Valid ∧ SizeInv sample_heap sample_A ∧
    (∀ fuel, fuel < sample_A.size_ →
      SingleLinkedList.Clear_loop fuel sample_heap sample_A = .fault .out_of_fuel) ∧
    (∀ fuel, sample_A.size_ ≤ fuel → ∃ h2 L2,
      SingleLinkedList.Clear_loop fuel sample_heap sample_A = .ok (h2, L2) () ∧
      L2.head_.next_node = none ∧ L2.size_ = 0) ∧
    (∀ fuel, SingleLinkedList.Clear_loop fuel sample_heap sample_A
      ≠ .fault .undefined_behavior) ∧
    (∃ h2 L2, SingleLinkedList.Clear sample_heap sample_A = .ok (h2, L2) () ∧
      L2.head_.next_node = none) ∧
    (∀ (h1 : Heap Nat) (L1 : SingleLinkedList), Reachable h1 L1 →
      ∃ h2 L2, SingleLinkedList.dtor h1 L1 = .ok (h2, L2) () ∧ L2.head_.next_node = none) :=
  ⟨sample_valid, by decide, clear_loop_safe sample_heap sample_A sample_valid (by decide)⟩

/-- C16: strong failure guarantee of copy assignment.  For a target `T` and a source `A`
with `n` elements, if the `K`-th node allocation (`1 ≤ K ≤ n`) during `T = A` is the
one that fails, the assignment throws `std::bad_alloc` and hands back `T` as it was:
the list object is unchanged, and the elements of `T` and of `A` and their agreement
with the sizes are as before; the nodes already created for the copy are destroyed
again and no older node is touched. -/
theorem assign_strong_guarantee {α : Type} (h : Heap α) (T A : SingleLinkedList)
    (ts xs : List α) (K : Nat) (hv : h.Valid) (hT : SizeInv h T) (hA : SizeInv h A)
    (hts : T.traverse h = .ok ts) (hxs : A.traverse h = .ok xs)
    (hK : 1 ≤ K) (hKn : K ≤ A.GetSize) (hfail : h.avail = K - 1) :
    ∃ h2, SingleLinkedList.assign h T (.other A) = .bad_alloc (h2, T) ∧ h2.Valid ∧
      T.traverse h2 = .ok ts ∧ SizeInv h2 T ∧ A.traverse h2 = .ok xs ∧ SizeInv h2 A ∧
      (∀ a, a < h.brk → h2.cells a = h.cells a) ∧ (∀ a, h.brk ≤ a → h2.cells a = none) := by
  obtain ⟨ns, hrT, hmT⟩ := rep_of_inv hv hT hts
  obtain ⟨ms, hrA, hmA⟩ := rep_of_inv hv hA hxs
  have hlt : h.avail < ms.length := by
    have : A.GetSize = ms.length := hrA.2.2
    omega
  obtain ⟨h2, he, hv2, hf, hclean⟩ := assign_bad_alloc_clean hv T hrA hlt
  have hrT2 : Rep h2 T ns :=
    hrT.transfer (fun x hx => hf x.1 (Linked.addr_lt hv hrT.2.1 x hx))
  have hrA2 : Rep h2 A ms :=
    hrA.transfer (fun x hx => hf x.1 (Linked.addr_lt hv hrA.2.1 x hx))
  refine ⟨h2, he, hv2, ?_, inv_of_rep hv2 hrT2, ?_, inv_of_rep hv2 hrA2, hf, hclean⟩
  · rw [traverse_of_rep hv2 hrT2, hmT]
  · rw [traverse_of_rep hv2 hrA2, hmA]

theorem assign_strong_guarantee_witness :
    sample_low.Valid ∧ SizeInv sample_low sample_B ∧ SizeInv sample_low sample_A ∧
    sample_B.traverse sample_low = .ok [7] ∧ sample_A.traverse sample_low = .ok [1, 2, 3] ∧
    1 ≤ 2 ∧ 2 ≤ sample_A.GetSize ∧ sample_low.avail = 2 - 1 ∧
    ∃ h2, SingleLinkedList.assign sample_low sample_B (.other sample_A)
        = .bad_alloc (h2, sample_B) ∧ h2.Valid ∧
      sample_B.traverse h2 = .ok [7] ∧ SizeInv h2 sample_B ∧
      sample_A.traverse h2 = .ok [1, 2, 3] ∧ SizeInv h2 sample_A ∧
      (∀ a, a < sample_low.brk → h2.cells a = sample_low.cells a) ∧
      (∀ a, sample_low.brk ≤ a → h2.cells a = none) :=
  ⟨sample_low_valid, by decide, by decide, rfl, rfl, by decide, by decide, rfl,
    assign_strong_guarantee sample_low sample_B sample_A [7] [1, 2, 3] 2 sample_low_valid
      (by decide) (by decide) rfl rfl (by decide) (by decide) rfl⟩

end SinglyLinked
